import Mathlib

/-!
# Verification of the rbn-vfd core (feed parser, aggregation store, display scheduler)

Shallow embedding of the rbn-vfd sources:

* `services/rbn_client.rs` — spot-line parsing (`parse_spot_line` plus the
  line-framing / login logic of `handle_connection`);
* `models/spot.rs` — `RawSpot`, `AggregatedSpot` and their operations;
* `services/spot_store.rs` — `SpotStore`;
* `services/vfd_display.rs` — `VfdDisplay`.

Modelling conventions:

* Rust `String`/`&str` values are `List Char` (`Str` below); callsigns and
  protocol text are ASCII in practice, so byte/char distinctions and Unicode
  case folding are not modelled.
* Rust `f64` is modelled by `F64`: either an exact rational (`F64.num`) or
  `F64.nan`.  Finite-value rounding is idealized away (the incremental means
  over parsed decimals never round in a way any claim depends on), and so are
  infinities.  The infinity idealization is harmless for the display, store
  and parsing claims, but it is load-bearing for the NaN-reachability
  question: `str::parse::<f64>` saturates overlong tokens to `+inf` and
  `inf - inf = NaN` inside `AggregatedSpot::update`.  The refinement `F64R`
  further below models the infinity classes exactly where that matters.
* `Instant` values and `Duration`s are rationals (seconds); wall-clock time
  (`SystemTime`) is a natural number of milliseconds since the epoch.
* `u32`/`usize` counters are unbounded naturals, `i32` is `Int` (the `i32`
  range only matters where `str::parse::<i32>` can fail, which is modelled).
* Fallible or panicking operations return `Option`; in-code `Instant::now()`
  and RNG calls become explicit parameters.
-/

namespace RbnVfd

/-- Rust strings, modelled as lists of characters. -/
abbrev Str := List Char

/-! ## The `f64` model -/

/-- Model of Rust `f64`: an exact rational value or NaN.  Infinities do not
arise in the arithmetic this program performs on parsed values and are not
modelled; division by zero (which cannot occur here, the divisor is a
positive count) is mapped to `nan`. -/
inductive F64 where
  | num (q : ℚ)
  | nan
deriving DecidableEq

/-- `a + b` on `F64`, NaN-propagating. -/
def F64.add : F64 → F64 → F64
  | .num a, .num b => .num (a + b)
  | _, _ => .nan

/-- `a - b` on `F64`, NaN-propagating. -/
def F64.sub : F64 → F64 → F64
  | .num a, .num b => .num (a - b)
  | _, _ => .nan

/-- `a / b` on `F64`, NaN-propagating (the zero-divisor case cannot occur in
this program; it is mapped to `nan`). -/
def F64.div : F64 → F64 → F64
  | .num a, .num b => if b = 0 then .nan else .num (a / b)
  | _, _ => .nan

/-- Rust `f64::round`: round half away from zero. -/
def roundHalfAway (q : ℚ) : ℤ :=
  if 0 ≤ q then ⌊q + 1/2⌋ else -⌊-q + 1/2⌋

/-- `f64::round` lifted to the model. -/
def F64.round : F64 → F64
  | .num q => .num (roundHalfAway q)
  | .nan => .nan

/-- Round to the nearest integer with ties to even (the rounding Rust's
fixed-precision float formatting applies to the decimal expansion). -/
def roundTiesEven (q : ℚ) : ℤ :=
  let f : ℤ := ⌊q⌋
  let r : ℚ := q - f
  if r < 1/2 then f
  else if 1/2 < r then f + 1
  else if Even f then f else f + 1

/-- Rust `a.partial_cmp(&b)` on `f64`: `none` exactly when a NaN is
involved. -/
def F64.pcmp : F64 → F64 → Option Ordering
  | .num a, .num b => some (compare a b)
  | _, _ => none

/-- `f64 as i32`: truncate toward zero, saturating at the `i32` range; NaN
casts to 0. -/
def F64.asI32 : F64 → ℤ
  | .num q =>
    let t : ℤ := if 0 ≤ q then ⌊q⌋ else -⌊-q⌋
    max (-2147483648) (min 2147483647 t)
  | .nan => 0

/-- Numeric order on `F64` restricted to non-NaN values (used to state
sortedness of query results). -/
def F64.qle : F64 → F64 → Prop
  | .num a, .num b => a ≤ b
  | _, _ => False

instance : DecidablePred (fun p : F64 × F64 => F64.qle p.1 p.2) := by
  intro p
  rcases p with ⟨a | _, b | _⟩ <;> simp only [F64.qle] <;> infer_instance

instance (a b : F64) : Decidable (F64.qle a b) := by
  rcases a with a | _ <;> rcases b with b | _ <;> simp only [F64.qle] <;> infer_instance

/-! ## Character classes and string helpers

The Rust side uses the `regex` crate classes `\s`, `\d`, `\w` (over ASCII
protocol text) and a few `str` methods.  They are modelled on `Char`. -/

/-- Regex `\s` (ASCII fragment: space, tab, LF, VT, FF, CR). -/
def wsC (c : Char) : Bool :=
  c = ' ' || c = '\t' || c = '\n' || c = '\x0b' || c = '\x0c' || c = '\r'

/-- Regex `\d` (ASCII digits). -/
def digC (c : Char) : Bool := c.isDigit

/-- Regex `\w` (ASCII fragment: alphanumerics and underscore). -/
def wordC (c : Char) : Bool := c.isAlphanum || c = '_'

/-- Drop a literal from the front of a string (`none` if it is not a
prefix of it). -/
def dropLit : Str → Str → Option Str
  | [], s => some s
  | _ :: _, [] => none
  | c :: p, d :: s => if d = c then dropLit p s else none

/-- Rust `str::starts_with`. -/
def startsWithL (p s : Str) : Bool := (dropLit p s).isSome

/-- Does `pat` occur as a contiguous substring of `s` (Rust
`str::contains`)? -/
def containsSub (s pat : Str) : Bool :=
  if startsWithL pat s then true
  else
    match s with
    | [] => false
    | _ :: t => containsSub t pat

/-- Rust `str::trim_end_matches(['-', '#', ':'])`: strip every trailing
occurrence of those characters. -/
def trimEndMarks (s : Str) : Str :=
  (s.reverse.dropWhile (fun c => c = '-' || c = '#' || c = ':')).reverse

/-- Greedy `C+` for a character class `C`: the maximal nonempty run
satisfying `p`, together with the rest. -/
def munch1 (p : Char → Bool) (cs : Str) : Option (Str × Str) :=
  if (cs.takeWhile p).isEmpty then none
  else some (cs.takeWhile p, cs.dropWhile p)

/-- Greedy `\s+`, keeping only the remainder. -/
def munchWs (cs : Str) : Option Str := (munch1 wsC cs).map Prod.snd

/-- Greedy `\d+\.?\d*` (the frequency token), returning the token and the
rest. -/
def munchFreq (cs : Str) : Option (Str × Str) :=
  let d1 := cs.takeWhile digC
  if d1.isEmpty then none
  else
    match cs.dropWhile digC with
    | c :: r2 =>
      if c = '.' then some (d1 ++ c :: r2.takeWhile digC, r2.dropWhile digC)
      else some (d1, c :: r2)
    | [] => some (d1, [])

/-! ## The spot-line regex

`rbn_client.rs` matches

  `DX de (\S+):\s+(\d+\.?\d*)\s+(\S+)\s+(\w+)\s+(\d+)\s+dB\s+(\d+)\s+WPM`

unanchored, with leftmost-first backtracking semantics.  `matchAt` below is a
deterministic transcription of a match attempt at one position, correct
because each greedy sub-match is followed by a requirement no shorter
backtracked sub-match could satisfy:

* `(\S+):` then `\s+`: the `:` consumed after the group must be followed by
  whitespace or the end of the non-space run, so the only viable split of the
  maximal non-space run is at its final character, which must be `:`;
* each of `\d+\.?\d*`, `(\S+)`, `(\w+)`, `(\d+)` is followed by `\s+`, and
  every character a shorter sub-match would expose (digits, `.`, non-space,
  word characters) is non-whitespace, so only the maximal munch can succeed;
* each `\s+` is followed by a non-whitespace requirement (`\d`, `\S`, `\w`,
  `d` of `dB`, `W` of `WPM`), so only the maximal whitespace munch can
  succeed.

The unanchored search (`Regex::captures` scans for the leftmost match) is
`searchFrom`, trying every start position left to right. -/

/-- The six capture groups of the spot regex. -/
abbrev SpotCaps := Str × Str × Str × Str × Str × Str

/-- The capture of `(\S+):` followed by `\s+`: succeeds when the maximal
non-space run has length at least two and ends in `:`; the group is the run
without that final colon (see the backtracking analysis above). -/
def spotterStep (r0 : Str) : Option (Str × Str) :=
  let run := r0.takeWhile (fun c => !wsC c)
  match run.getLast? with
  | some ':' =>
    if (run.dropLast).isEmpty then none
    else some (run.dropLast, r0.dropWhile (fun c => !wsC c))
  | _ => none

/-- Second half of a match attempt: `(\w+)\s+(\d+)\s+dB\s+(\d+)\s+WPM`,
starting at the mode token.  Returns the mode, snr and speed groups. -/
def matchModeTail (r6 : Str) : Option (Str × Str × Str) := do
  let p4 ← munch1 wordC r6
  let r8 ← munchWs p4.2
  let p5 ← munch1 digC r8
  let r10 ← munchWs p5.2
  let r11 ← dropLit "dB".data r10
  let r12 ← munchWs r11
  let p6 ← munch1 digC r12
  let r14 ← munchWs p6.2
  let _ ← dropLit "WPM".data r14
  pure (p4.1, p5.1, p6.1)

/-- First half of a match attempt: `DX de (\S+):\s+(\d+\.?\d*)\s+(\S+)\s+`,
returning the spotter, frequency and callsign groups and the rest of the
line (starting at the mode token). -/
def matchHead (cs : Str) : Option (Str × Str × Str × Str) := do
  let r0 ← dropLit "DX de ".data cs
  let p1 ← spotterStep r0
  let r2 ← munchWs p1.2
  let p2 ← munchFreq r2
  let r4 ← munchWs p2.2
  let p3 ← munch1 (fun c => !wsC c) r4
  let r6 ← munchWs p3.2
  pure (p1.1, p2.1, p3.1, r6)

/-- One match attempt of the spot regex at the start of `cs`. -/
def matchAt (cs : Str) : Option SpotCaps := do
  let q ← matchHead cs
  let t ← matchModeTail q.2.2.2
  pure (q.1, q.2.1, q.2.2.1, t)

/-- Leftmost unanchored search of the spot regex. -/
def searchFrom : Str → Option SpotCaps
  | [] => none
  | c :: cs =>
    match matchAt (c :: cs) with
    | some r => some r
    | none => searchFrom cs

/-! ## Numeric token parsing -/

/-- Value of a nonempty all-digit string. -/
def digitsVal (s : Str) : ℕ :=
  s.foldl (fun a c => a * 10 + (c.toNat - '0'.toNat)) 0

/-- Rust `str::parse::<i32>()` on the tokens the regex produces (nonempty
digit strings; fails on overflow past `i32::MAX`). -/
def parseI32 (s : Str) : Option ℤ :=
  if s.isEmpty then none
  else if s.all digC then
    if digitsVal s ≤ 2147483647 then some (digitsVal s) else none
  else none

/-- Rust `str::parse::<f64>()` on the tokens the regex produces
(`\d+\.?\d*`): the exact rational value of the decimal literal.  (The real
parse rounds to the nearest `f64`; the claims under verification do not
depend on that rounding, and no token of this shape parses to NaN.) -/
def parseDecimal (s : Str) : Option ℚ :=
  let ip := s.takeWhile digC
  if ip.isEmpty then none
  else
    match s.dropWhile digC with
    | [] => some (digitsVal ip)
    | '.' :: frac =>
      if frac.all digC then
        some ((digitsVal ip : ℚ) + (digitsVal frac : ℚ) / (10 : ℚ) ^ frac.length)
      else none
    | _ => none

/-! ## `RawSpot` and `parse_spot_line` -/

/-- `models/spot.rs`: `RawSpot`.  `timestamp` is the `Instant::now()` taken
at construction, passed explicitly. -/
structure RawSpot where
  spotter_callsign : Str
  spotted_callsign : Str
  frequency_khz : F64
  snr : ℤ
  speed_wpm : ℤ
  mode : Str
  timestamp : ℚ
deriving DecidableEq

/-- `rbn_client.rs::parse_spot_line`: run the regex, then build the
`RawSpot`, stripping trailing `-`, `#`, `:` from the spotter and parsing the
three numeric tokens (any parse failure gives `None`). -/
def parse_spot_line (line : Str) (now : ℚ) : Option RawSpot :=
  match searchFrom line with
  | none => none
  | some (g1, g2, g3, g4, g5, g6) =>
    match parseDecimal g2, parseI32 g5, parseI32 g6 with
    | some fq, some sv, some wv =>
      some { spotter_callsign := trimEndMarks g1
             spotted_callsign := g3
             frequency_khz := F64.num fq
             snr := sv
             speed_wpm := wv
             mode := g4
             timestamp := now }
    | _, _, _ => none

/-- The per-line dispatch of `handle_connection` (rbn_client.rs:170-174):
only lines starting with the sentinel `DX de` are given to
`parse_spot_line`. -/
def processLine (line : Str) (now : ℚ) : Option RawSpot :=
  if startsWithL "DX de".data line then parse_spot_line line now else none

/-- A line of the informal spot grammar
`DX de <spotter>: <freq> <callsign> <mode> <snr> dB <speed> WPM`,
with an arbitrary trailing remainder `tl` (the live feed appends further
text and the line terminator after `WPM`). -/
def mkGrammarLine (spotter freqTok callsign mode snrTok speedTok tl : Str) : Str :=
  "DX de ".data ++ spotter ++ ':' :: ' ' :: freqTok ++ ' ' :: callsign ++
    ' ' :: mode ++ ' ' :: snrTok ++ " dB ".data ++ speedTok ++ " WPM".data ++ tl

/-- The frequency token shapes `\d+` and `\d+.\d*`. -/
def freqTok (ip : Str) : Option Str → Str
  | none => ip
  | some fd => ip ++ '.' :: fd

/-! ## `AggregatedSpot` (`models/spot.rs`) -/

/-- `models/spot.rs`: `AggregatedSpot`.  `spot_count` is a `u32` in the
source, modelled unbounded; `last_spotted` is an `Instant`, modelled as
rational seconds and passed explicitly where the source calls
`Instant::now()`. -/
structure AggregatedSpot where
  callsign : Str
  frequency_khz : F64
  center_frequency_khz : F64
  highest_snr : ℤ
  average_speed : F64
  spot_count : ℕ
  last_spotted : ℚ
deriving DecidableEq

/-- `AggregatedSpot::from_raw`. -/
def AggregatedSpot.from_raw (raw : RawSpot) (now : ℚ) : AggregatedSpot :=
  { callsign := raw.spotted_callsign
    frequency_khz := raw.frequency_khz
    center_frequency_khz := raw.frequency_khz.round
    highest_snr := raw.snr
    average_speed := F64.num (raw.speed_wpm : ℚ)
    spot_count := 1
    last_spotted := now }

/-- `AggregatedSpot::update`: incremental means, running max of SNR. -/
def AggregatedSpot.update (s : AggregatedSpot) (raw : RawSpot) (now : ℚ) :
    AggregatedSpot :=
  let n := s.spot_count + 1
  { s with
    spot_count := n
    average_speed :=
      s.average_speed.add
        (((F64.num (raw.speed_wpm : ℚ)).sub s.average_speed).div (F64.num (n : ℚ)))
    frequency_khz :=
      s.frequency_khz.add
        ((raw.frequency_khz.sub s.frequency_khz).div (F64.num (n : ℚ)))
    highest_snr := if s.highest_snr < raw.snr then raw.snr else s.highest_snr
    last_spotted := now }

/-- Decimal digits of a natural number (Rust integer `Display`). -/
def natStr (n : ℕ) : Str := Nat.toDigits 10 n

/-- Decimal representation of an integer (Rust integer `Display`). -/
def intStr (z : ℤ) : Str :=
  if z < 0 then '-' :: natStr z.natAbs else natStr z.natAbs

/-- Rust `format!("{:.0}", f)` as used to print an already-rounded
(integer-valued) `f64` in the spot key; `f64` NaN prints as `NaN`. -/
def fmtDec0 : F64 → Str
  | .num q => intStr (roundTiesEven q)
  | .nan => "NaN".data

/-- The store key `format!("{}|{:.0}", spotted_callsign, center_freq)`
(spot_store.rs:46). -/
def spotKey (callsign : Str) (center : F64) : Str :=
  callsign ++ '|' :: fmtDec0 center

/-- The key `add_spot` computes for a raw spot. -/
def rawKey (raw : RawSpot) : Str :=
  spotKey raw.spotted_callsign raw.frequency_khz.round

/-- Rust `format!("{:.1}", q)` for the display string: one decimal digit.
(The source formats the binary `f64` closest to `q`; on the exact decimal
values of the claims the two agree, and the negative branch prints the
magnitude with a leading minus, ignoring the `-0.0` corner that no reachable
frequency produces.) -/
def fmtDec1 : F64 → Str
  | .num q =>
    let n := roundTiesEven (q * 10)
    if n < 0 then '-' :: (natStr (n.natAbs / 10) ++ '.' :: natStr (n.natAbs % 10))
    else natStr (n.natAbs / 10) ++ '.' :: natStr (n.natAbs % 10)
  | .nan => "NaN".data

/-- Pad on the left with spaces to a minimum width (Rust `{:w}` /
right-alignment; the value is never truncated). -/
def padLeft (w : ℕ) (s : Str) : Str := List.replicate (w - s.length) ' ' ++ s

/-- Pad on the right with spaces to a minimum width (Rust `{:<w}` on
strings; the value is never truncated). -/
def padRight (w : ℕ) (s : Str) : Str := s ++ List.replicate (w - s.length) ' '

/-- `AggregatedSpot::to_display_string` (src/models/spot.rs:97-113):
`format!("{:7.1} {:2} {:<9}", frequency_khz, average_speed.round() as i32,
call)` where `call` is the callsign truncated to 9 characters.  The three
field widths are Rust minimum widths. -/
def AggregatedSpot.to_display_string (s : AggregatedSpot) : Str :=
  let call := if 9 < s.callsign.length then s.callsign.take 9 else s.callsign
  padLeft 7 (fmtDec1 s.frequency_khz) ++
    ' ' :: padLeft 2 (intStr (s.average_speed.round.asI32)) ++
    ' ' :: padRight 9 call

/-! ## `SpotStore` (`services/spot_store.rs`)

The `HashMap<String, AggregatedSpot>` is modelled as an association list
with at most one entry per key (`add_spot` only appends a key that is not
yet present).  Locking always succeeds in this single-threaded model (lock
poisoning cannot occur). -/

/-- Store state: the map plus the two externally settable filters
(`min_snr`, and `max_age` in seconds). -/
structure SpotStore where
  spots : List (Str × AggregatedSpot)
  min_snr : ℤ
  max_age : ℚ
deriving DecidableEq

/-- `SpotStore::new` (max age given in minutes, stored in seconds). -/
def SpotStore.new (min_snr : ℤ) (max_age_minutes : ℕ) : SpotStore :=
  { spots := [], min_snr := min_snr, max_age := (max_age_minutes : ℚ) * 60 }

/-- `HashMap` lookup on the association list. -/
def findKey (l : List (Str × AggregatedSpot)) (k : Str) : Option AggregatedSpot :=
  match l with
  | [] => none
  | (k', s) :: t => if k' = k then some s else findKey t k

/-- The `get_mut`-or-`insert` of `add_spot`: update the entry at `key` in
place if it exists, otherwise insert a fresh aggregate. -/
def upsert (l : List (Str × AggregatedSpot)) (key : Str) (raw : RawSpot)
    (now : ℚ) : List (Str × AggregatedSpot) :=
  match l with
  | [] => [(key, AggregatedSpot.from_raw raw now)]
  | (k', s) :: t =>
    if k' = key then (k', s.update raw now) :: t
    else (k', s) :: upsert t key raw now

/-- `SpotStore::add_spot`: reject below the current min-SNR filter, else
update or insert at the `(callsign, rounded frequency)` key. -/
def SpotStore.add_spot (st : SpotStore) (raw : RawSpot) (now : ℚ) : SpotStore :=
  if raw.snr < st.min_snr then st
  else { st with spots := upsert st.spots (rawKey raw) raw now }

/-- Ingest a sequence of raw spots, each with its capture time. -/
def SpotStore.add_all (st : SpotStore) (l : List (RawSpot × ℚ)) : SpotStore :=
  l.foldl (fun s p => s.add_spot p.1 p.2) st

/-- `SpotStore::purge_old_spots`: retain entries with
`last_spotted >= now - max_age`. -/
def SpotStore.purge_old_spots (st : SpotStore) (now : ℚ) : SpotStore :=
  { st with spots := st.spots.filter (fun p => now - st.max_age ≤ p.2.last_spotted) }

/-- `SpotStore::count`. -/
def SpotStore.count (st : SpotStore) : ℕ := st.spots.length

/-! ### The frequency sort

`get_spots_by_frequency` sorts with
`a.frequency_khz.partial_cmp(&b.frequency_khz).unwrap()` — a comparator that
panics when either frequency is NaN.  The sort is Rust's stable
`slice::sort_by`, modelled as a stable top-down merge sort whose comparator
returns `Option Bool` (`none` = the unwrap panics); `none` is propagated, so
`none` in the result models a (possible) panic and `some` is the value the
source returns.  For a comparator that is total on the elements the model is
exact (a stable sort's output is implementation-independent). -/

/-- `a` may stay before `b` under the `sort_by` comparator: the comparison
is not `Greater`; `none` when the `unwrap` would panic. -/
def freqLe (a b : AggregatedSpot) : Option Bool :=
  (F64.pcmp a.frequency_khz b.frequency_khz).map (fun o => !(o == Ordering.gt))

/-- Stable merge with a fallible comparator. -/
def mergeChk (le : α → α → Option Bool) : List α → List α → Option (List α)
  | [], ys => some ys
  | x :: xs, [] => some (x :: xs)
  | x :: xs, y :: ys =>
    match le x y with
    | none => none
    | some true => (mergeChk le xs (y :: ys)).map (x :: ·)
    | some false => (mergeChk le (x :: xs) ys).map (y :: ·)
termination_by a b => a.length + b.length

/-- Stable top-down merge sort with a fallible comparator. -/
def msortChk (le : α → α → Option Bool) (l : List α) : Option (List α) :=
  if h : l.length ≤ 1 then some l
  else
    match msortChk le (l.take (l.length / 2)), msortChk le (l.drop (l.length / 2)) with
    | some ls, some rs => mergeChk le ls rs
    | _, _ => none
termination_by l.length
decreasing_by
  · simp only [List.length_take]
    omega
  · simp only [List.length_drop]
    omega

/-- `SpotStore::get_spots_by_frequency`: clone the values and sort them
ascending by frequency; `none` models the comparator panic on NaN. -/
def SpotStore.get_spots_by_frequency (st : SpotStore) :
    Option (List AggregatedSpot) :=
  msortChk freqLe (st.spots.map Prod.snd)

/-- The query C2 describes, built from the spec's words for comparison with
`get_spots_by_frequency`: only entries meeting the current min-SNR and
max-age filters, ordered by frequency with ties broken by callsign. -/
def querySpecced (st : SpotStore) (now : ℚ) : Option (List AggregatedSpot) :=
  msortChk
    (fun a b =>
      (F64.pcmp a.frequency_khz b.frequency_khz).map
        (fun o =>
          if o == Ordering.eq then decide (String.mk a.callsign ≤ String.mk b.callsign)
          else !(o == Ordering.gt)))
    ((st.spots.map Prod.snd).filter
      (fun s => decide (st.min_snr ≤ s.highest_snr) && decide (now - st.max_age ≤ s.last_spotted)))

/-! ## `VfdDisplay` (`services/vfd_display.rs`)

State machine driven by `update`.  `Instant` time is a rational (seconds)
passed in for `Instant::now()`; `SystemTime` is a natural number of
milliseconds since the epoch; the three `rand` draws of a tick are an
explicit oracle.  Bytes written to the serial port are modelled as
`VfdWrite` events (emitted only while a port is open, as in the source); a
write failure does not alter state in the source and is not modelled. -/

/-- `vfd_display.rs`: `RandomCharState`. -/
structure RandomCharState where
  showing_char : Bool
  char_col : ℕ
  char_row : ℕ
  character : Char
  last_second : ℕ
deriving DecidableEq

/-- `vfd_display.rs`: the `VfdDisplay` fields `update` reads or writes
(`port` is modelled by whether it is open; `port_name` is irrelevant to the
scheduler). -/
structure VfdDisplay where
  port_open : Bool
  scroll_index : ℕ
  scroll_interval : ℚ
  last_update : ℚ
  force_random_mode : Bool
  random_char_percent : ℕ
  random_state : RandomCharState
  current_lines : Str × Str
deriving DecidableEq

/-- One write to the display sink: the clear/home control byte, or a full
two-line frame (each line padded/truncated to 20 characters before the
write). -/
inductive VfdWrite where
  | clearHome
  | frame (l1 l2 : Str)
deriving DecidableEq

/-- The RNG draws `update_random_mode` makes when a new wall-clock second
starts. -/
structure RndDraw where
  character : Char
  col : ℕ
  row : ℕ
deriving DecidableEq

/-- `VfdDisplay::format_line`: pad to 20 characters, truncate beyond 20. -/
def format_line (t : Str) : Str := (padRight 20 t).take 20

/-- `VfdDisplay::write_display`: clear-and-home then both padded lines (one
`frame` event) when a port is open; `current_lines` keeps the unpadded
text. -/
def VfdDisplay.write_display (st : VfdDisplay) (l1 l2 : Str) :
    VfdDisplay × List VfdWrite :=
  ({ st with current_lines := (l1, l2) },
   if st.port_open then [VfdWrite.frame (format_line l1) (format_line l2)] else [])

/-- `VfdDisplay::write_line`: set one line and rewrite the whole display. -/
def VfdDisplay.write_line (st : VfdDisplay) (line : ℕ) (text : Str) :
    VfdDisplay × List VfdWrite :=
  let l1 := if line = 0 then text else st.current_lines.1
  let l2 := if line = 1 then text else st.current_lines.2
  st.write_display l1 l2

/-- `VfdDisplay::clear`: clear-and-home byte (when open), blank lines. -/
def VfdDisplay.clear (st : VfdDisplay) : VfdDisplay × List VfdWrite :=
  ({ st with current_lines := ([], []) },
   if st.port_open then [VfdWrite.clearHome] else [])

/-- Place one character at `col` on a 20-space blank line
(`String::replace_range(col..col + 1, ...)`). -/
def placeChar (col : ℕ) (c : Char) : Str :=
  (List.replicate 20 ' ').take col ++ c :: (List.replicate 20 ' ').drop (col + 1)

/-- `VfdDisplay::update_random_mode`: duty-cycled single-glyph idle
animation.  `nowMs` is `SystemTime::now()` in whole milliseconds;
`rnd` supplies the RNG draws used when a new second begins. -/
def VfdDisplay.update_random_mode (st : VfdDisplay) (nowMs : ℕ) (rnd : RndDraw) :
    VfdDisplay × List VfdWrite :=
  let current_second := nowMs / 1000
  let ms_in_second := nowMs % 1000
  let threshold_ms := st.random_char_percent * 10
  let should_show : Bool :=
    decide (ms_in_second < threshold_ms) && decide (0 < st.random_char_percent)
  let st :=
    if current_second ≠ st.random_state.last_second then
      { st with
        random_state :=
          { st.random_state with
            last_second := current_second
            character := rnd.character
            char_col := rnd.col
            char_row := rnd.row } }
    else st
  if should_show && !st.random_state.showing_char then
    let st := { st with random_state := { st.random_state with showing_char := true } }
    let line0 :=
      if st.random_state.char_row = 0 then placeChar st.random_state.char_col st.random_state.character
      else List.replicate 20 ' '
    let line1 :=
      if st.random_state.char_row = 0 then List.replicate 20 ' '
      else placeChar st.random_state.char_col st.random_state.character
    st.write_display line0 line1
  else if !should_show && st.random_state.showing_char then
    ({ st with random_state := { st.random_state with showing_char := false } }).clear
  else (st, [])

/-- Placeholder aggregate for the (unreachable) out-of-range index of the
source's direct `spots[idx]` indexing. -/
def junkSpot : AggregatedSpot :=
  { callsign := [], frequency_khz := .nan, center_frequency_khz := .nan,
    highest_snr := 0, average_speed := .nan, spot_count := 0, last_spotted := 0 }

/-- `VfdDisplay::update` (vfd_display.rs:172-208): the per-tick decision.
`spots` is the current filtered/sorted snapshot, `now` is `Instant::now()`,
`nowMs`/`rnd` feed the idle animation.  (For an empty list the source's
`_` match arm would take `scroll_index % 0`, but it is unreachable behind
the `spots.is_empty()` guard; the model uses `getD` with an arbitrary
default there.) -/
def VfdDisplay.update (st : VfdDisplay) (spots : List AggregatedSpot)
    (now : ℚ) (nowMs : ℕ) (rnd : RndDraw) : VfdDisplay × List VfdWrite :=
  if !st.port_open then (st, [])
  else if st.force_random_mode || spots.isEmpty then st.update_random_mode nowMs rnd
  else if max (now - st.last_update) 0 < st.scroll_interval then (st, [])
  else
    let st := { st with last_update := now }
    if spots.length = 1 then
      let (st1, w1) := st.write_line 0 ((spots.getD 0 junkSpot).to_display_string)
      let (st2, w2) := st1.write_line 1 []
      (st2, w1 ++ w2)
    else if spots.length = 2 then
      let (st1, w1) := st.write_line 0 ((spots.getD 0 junkSpot).to_display_string)
      let (st2, w2) := st1.write_line 1 ((spots.getD 1 junkSpot).to_display_string)
      (st2, w1 ++ w2)
    else
      let idx1 := st.scroll_index % spots.length
      let idx2 := (st.scroll_index + 1) % spots.length
      let (st1, w1) := st.write_line 0 ((spots.getD idx1 junkSpot).to_display_string)
      let (st2, w2) := st1.write_line 1 ((spots.getD idx2 junkSpot).to_display_string)
      ({ st2 with scroll_index := (st.scroll_index + 1) % spots.length }, w1 ++ w2)

/-- Iterated ticks of `update` at the given `Instant` times, with a fixed
spot snapshot (wall-clock and RNG inputs are irrelevant outside the idle
animation and fixed arbitrarily). -/
def VfdDisplay.runTicks (st : VfdDisplay) (spots : List AggregatedSpot)
    (times : List ℚ) : VfdDisplay :=
  times.foldl (fun s t => (s.update spots t 0 ⟨'A', 0, 0⟩).1) st

/-! ## The connection read loop (`rbn_client.rs::handle_connection`)

One iteration of the `Ok(n)` read arm as a pure transition on the
accumulated line buffer and `logged_in` flag.  A received chunk is assumed
to be valid UTF-8 (the source silently skips chunks that are not; protocol
traffic is ASCII).  Socket writes appear as `netWrite` events; `writeOk`
says whether the `write_all` of the login string succeeds. -/

/-- The events `handle_connection` can emit toward the app, plus the socket
write of the login string. -/
inductive RbnEvent where
  | status (text : Str)
  | spot (r : RawSpot)
  | rawData (data : Str) (received : Bool)
  | netWrite (data : Str)
deriving DecidableEq

/-- Buffer-and-login state of one connection. -/
structure ConnState where
  buffer : Str
  logged_in : Bool
deriving DecidableEq

/-- Split off the first complete line (everything up to and including the
first `\n`), if any. -/
def splitNl : Str → Option (Str × Str)
  | [] => none
  | c :: cs =>
    if c = '\n' then some ([c], cs)
    else
      match splitNl cs with
      | none => none
      | some p => some (c :: p.1, p.2)

/-- The `while let Some(pos) = buffer.find('\n')` loop, fuelled by the
buffer length (each extracted line consumes at least the newline, so
`buf.length` steps always suffice): all complete lines in order, and the
remaining partial data. -/
def drainLinesF : ℕ → Str → List Str × Str
  | 0, buf => ([], buf)
  | fuel + 1, buf =>
    match splitNl buf with
    | none => ([], buf)
    | some (l, r) =>
      let p := drainLinesF fuel r
      (l :: p.1, p.2)

def drainLines (buf : Str) : List Str × Str := drainLinesF buf.length buf

/-- The login-prompt substring scanned for (case-insensitively). -/
def loginPrompt : Str := "please enter your callsign".data

/-- The events of the line-draining loop: every complete line is echoed as
raw data, and sentinel lines that parse contribute a spot. -/
def lineEvents (lines : List Str) (now : ℚ) : List RbnEvent :=
  lines.flatMap (fun l =>
    RbnEvent.rawData l true ::
      match processLine l now with
      | some s => [RbnEvent.spot s]
      | none => [])

/-- One `Ok(n)` read-arm iteration of `handle_connection` (rbn_client.rs:
151-205): append the chunk, drain complete lines, then — when not yet
logged in and the lowercased remaining buffer contains the login prompt —
flush the buffer as raw data, clear it, and send `callsign\r\n` (entering
the logged-in state if the write succeeds). -/
def processChunk (st : ConnState) (chunk : Str) (callsign : Str) (now : ℚ)
    (writeOk : Bool) : ConnState × List RbnEvent :=
  let buf := st.buffer ++ chunk
  let p := drainLines buf
  let evs := lineEvents p.1 now
  if !st.logged_in && containsSub (p.2.map Char.toLower) loginPrompt then
    let flush := if p.2.isEmpty then [] else [RbnEvent.rawData p.2 true]
    let send_data := callsign ++ '\r' :: '\n' :: []
    if writeOk then
      (⟨[], true⟩,
       evs ++ flush ++
         [RbnEvent.netWrite send_data, RbnEvent.rawData send_data false,
          RbnEvent.status ("Logged in as ".data ++ callsign)])
    else (⟨[], st.logged_in⟩, evs ++ flush)
  else (⟨p.2, st.logged_in⟩, evs)

/-- A whole sequence of successful reads, collecting all events. -/
def processTrace (st : ConnState) (chunks : List Str) (callsign : Str)
    (now : ℚ) (writeOk : Bool) : ConnState × List RbnEvent :=
  match chunks with
  | [] => (st, [])
  | c :: cs =>
    let p := processChunk st c callsign now writeOk
    let q := processTrace p.1 cs callsign now writeOk
    (q.1, p.2 ++ q.2)

/-- Is this event a socket write? -/
def isNetWrite : RbnEvent → Bool
  | RbnEvent.netWrite _ => true
  | _ => false

/-- Number of socket writes among a list of events. -/
def countNetWrites (evs : List RbnEvent) : ℕ := (evs.filter isNetWrite).length

/-! ## Helper lemmas: string scanning -/

theorem dropLit_append (p r : Str) : dropLit p (p ++ r) = some r := by
  induction p with
  | nil => rfl
  | cons c cs ih => simpa [dropLit] using ih

theorem takeWhile_append_stop {p : Char → Bool} {a : Str} (b : Char) (r : Str)
    (ha : ∀ c ∈ a, p c = true) (hb : p b = false) :
    (a ++ b :: r).takeWhile p = a := by
  induction a with
  | nil => simp [List.takeWhile, hb]
  | cons x xs ih =>
    have hx : p x = true := ha x (by simp)
    simp only [List.cons_append, List.takeWhile, hx, List.append_eq]
    rw [ih (fun c hc => ha c (by simp [hc]))]

theorem dropWhile_append_stop {p : Char → Bool} {a : Str} (b : Char) (r : Str)
    (ha : ∀ c ∈ a, p c = true) (hb : p b = false) :
    (a ++ b :: r).dropWhile p = b :: r := by
  induction a with
  | nil => simp [List.dropWhile, hb]
  | cons x xs ih =>
    have hx : p x = true := ha x (by simp)
    simp only [List.cons_append, List.dropWhile, hx]
    exact ih (fun c hc => ha c (by simp [hc]))

theorem munch1_spec {p : Char → Bool} {a : Str} (b : Char) (r : Str)
    (ha : ∀ c ∈ a, p c = true) (hne : a ≠ []) (hb : p b = false) :
    munch1 p (a ++ b :: r) = some (a, b :: r) := by
  rw [munch1, takeWhile_append_stop b r ha hb, dropWhile_append_stop b r ha hb]
  cases a with
  | nil => exact absurd rfl hne
  | cons x xs => rfl

/-- Head-character test used to discharge the `\s+` munching steps. -/
def headNotWs : Str → Bool
  | [] => false
  | c :: _ => !wsC c

theorem munchWs_space {cs : Str} (h : headNotWs cs = true) :
    munchWs (' ' :: cs) = some cs := by
  cases cs with
  | nil => exact absurd h (by simp [headNotWs])
  | cons c r =>
    have hc : wsC c = false := by
      simpa [headNotWs] using h
    have : munch1 wsC ((' ' :: ([] : Str)) ++ c :: r) = some ([' '], c :: r) :=
      munch1_spec c r (by intro x hx; simp at hx; simp [hx, wsC]) (by simp) hc
    simp only [List.cons_append, List.nil_append] at this
    simp [munchWs, this]

theorem not_ws_of_digC {c : Char} (h : digC c = true) : wsC c = false := by
  by_contra hne
  have hw : wsC c = true := by
    cases hv : wsC c
    · exact absurd hv hne
    · rfl
  simp only [wsC, Bool.or_eq_true, decide_eq_true_eq] at hw
  rcases hw with ((((h1 | h2) | h3) | h4) | h5) | h6 <;>
    first
      | (subst h1; simp [digC] at h)
      | (subst h2; simp [digC] at h)
      | (subst h3; simp [digC] at h)
      | (subst h4; simp [digC] at h)
      | (subst h5; simp [digC] at h)
      | (subst h6; simp [digC] at h)

theorem not_ws_of_wordC {c : Char} (h : wordC c = true) : wsC c = false := by
  by_contra hne
  have hw : wsC c = true := by
    cases hv : wsC c
    · exact absurd hv hne
    · rfl
  simp only [wsC, Bool.or_eq_true, decide_eq_true_eq] at hw
  rcases hw with ((((h1 | h2) | h3) | h4) | h5) | h6 <;>
    first
      | (subst h1; simp [wordC, Char.isAlphanum, Char.isAlpha, Char.isUpper, Char.isLower, Char.isDigit] at h)
      | (subst h2; simp [wordC, Char.isAlphanum, Char.isAlpha, Char.isUpper, Char.isLower, Char.isDigit] at h)
      | (subst h3; simp [wordC, Char.isAlphanum, Char.isAlpha, Char.isUpper, Char.isLower, Char.isDigit] at h)
      | (subst h4; simp [wordC, Char.isAlphanum, Char.isAlpha, Char.isUpper, Char.isLower, Char.isDigit] at h)
      | (subst h5; simp [wordC, Char.isAlphanum, Char.isAlpha, Char.isUpper, Char.isLower, Char.isDigit] at h)
      | (subst h6; simp [wordC, Char.isAlphanum, Char.isAlpha, Char.isUpper, Char.isLower, Char.isDigit] at h)

theorem headNotWs_append_digits {fi : Str} (y : Str) (hne : fi ≠ [])
    (hall : ∀ c ∈ fi, digC c = true) : headNotWs (fi ++ y) = true := by
  cases fi with
  | nil => exact absurd rfl hne
  | cons c r =>
    have := not_ws_of_digC (hall c (by simp))
    simp [headNotWs, this]

theorem headNotWs_append_nonws {a : Str} (y : Str) (hne : a ≠ [])
    (hall : ∀ c ∈ a, wsC c = false) : headNotWs (a ++ y) = true := by
  cases a with
  | nil => exact absurd rfl hne
  | cons c r => simp [headNotWs, hall c (by simp)]

theorem headNotWs_append_word {a : Str} (y : Str) (hne : a ≠ [])
    (hall : ∀ c ∈ a, wordC c = true) : headNotWs (a ++ y) = true := by
  cases a with
  | nil => exact absurd rfl hne
  | cons c r =>
    have := not_ws_of_wordC (hall c (by simp))
    simp [headNotWs, this]

theorem spotterStep_spec {a : Str} (r : Str) (hne : a ≠ [])
    (hall : ∀ c ∈ a, wsC c = false) :
    spotterStep (a ++ ':' :: ' ' :: r) = some (a, ' ' :: r) := by
  have hrun : (a ++ ':' :: ' ' :: r).takeWhile (fun c => !wsC c) = a ++ [':'] := by
    have : a ++ ':' :: ' ' :: r = (a ++ [':']) ++ ' ' :: r := by simp
    rw [this]
    refine takeWhile_append_stop ' ' r ?_ (by simp [wsC])
    intro c hc
    rcases List.mem_append.1 hc with h | h
    · simp [hall c h]
    · simp at h
      subst h
      simp [wsC]
  have hdrop : (a ++ ':' :: ' ' :: r).dropWhile (fun c => !wsC c) = ' ' :: r := by
    have : a ++ ':' :: ' ' :: r = (a ++ [':']) ++ ' ' :: r := by simp
    rw [this]
    refine dropWhile_append_stop ' ' r ?_ (by simp [wsC])
    intro c hc
    rcases List.mem_append.1 hc with h | h
    · simp [hall c h]
    · simp at h
      subst h
      simp [wsC]
  rw [spotterStep]
  simp only [hrun, hdrop, List.getLast?_concat, List.dropLast_concat]
  cases a with
  | nil => exact absurd rfl hne
  | cons x xs => rfl

theorem munchFreq_int {ip : Str} (b : Char) (r : Str) (hne : ip ≠ [])
    (hall : ∀ c ∈ ip, digC c = true) (hb : digC b = false) (hbd : b ≠ '.') :
    munchFreq (ip ++ b :: r) = some (ip, b :: r) := by
  rw [munchFreq]
  simp only [takeWhile_append_stop b r hall hb, dropWhile_append_stop b r hall hb]
  cases hip : ip with
  | nil => exact absurd hip hne
  | cons x xs =>
    simp only [List.isEmpty_cons, Bool.false_eq_true, if_false, if_neg hbd]

theorem munchFreq_frac {ip fd : Str} (b : Char) (r : Str) (hne : ip ≠ [])
    (hip : ∀ c ∈ ip, digC c = true) (hfd : ∀ c ∈ fd, digC c = true)
    (hb : digC b = false) :
    munchFreq (ip ++ '.' :: (fd ++ b :: r)) = some (ip ++ '.' :: fd, b :: r) := by
  have hdot : digC '.' = false := by decide
  rw [munchFreq]
  simp only [takeWhile_append_stop '.' (fd ++ b :: r) hip hdot,
    dropWhile_append_stop '.' (fd ++ b :: r) hip hdot]
  cases hipc : ip with
  | nil => exact absurd hipc hne
  | cons x xs =>
    simp only [List.isEmpty_cons, Bool.false_eq_true, if_false, if_pos rfl]
    simp [takeWhile_append_stop b r hfd hb, dropWhile_append_stop b r hfd hb]

theorem parseI32_shape {s : Str} {v : ℤ} (h : parseI32 s = some v) :
    s ≠ [] ∧ ∀ c ∈ s, digC c = true := by
  rw [parseI32] at h
  split at h
  · exact Option.noConfusion h
  · rename_i hne
    split at h
    · rename_i hall
      refine ⟨by simpa [List.isEmpty_iff] using hne, ?_⟩
      intro c hc
      exact List.all_eq_true.1 hall c hc
    · exact Option.noConfusion h

/-- The whole regex match on a grammar-shaped line, yielding exactly the
six tokens. -/
theorem matchAt_grammar (sp fi cs md sn spd tl : Str) (fd : Option Str)
    (hsp : sp ≠ []) (hspw : ∀ c ∈ sp, wsC c = false)
    (hfi : fi ≠ []) (hfid : ∀ c ∈ fi, digC c = true)
    (hfd : ∀ s, fd = some s → ∀ c ∈ s, digC c = true)
    (hcs : cs ≠ []) (hcsw : ∀ c ∈ cs, wsC c = false)
    (hmd : md ≠ []) (hmdw : ∀ c ∈ md, wordC c = true)
    (hsn : sn ≠ []) (hsnd : ∀ c ∈ sn, digC c = true)
    (hspd : spd ≠ []) (hspdd : ∀ c ∈ spd, digC c = true) :
    matchAt (mkGrammarLine sp (freqTok fi fd) cs md sn spd tl) =
      some (sp, freqTok fi fd, cs, md, sn, spd) := by
  set T3 : Str := spd ++ ' ' :: 'W' :: 'P' :: 'M' :: tl with hT3
  set T2 : Str := sn ++ ' ' :: 'd' :: 'B' :: ' ' :: T3 with hT2
  set T1 : Str := md ++ ' ' :: T2 with hT1
  set X : Str := cs ++ ' ' :: T1 with hX
  set REST : Str := freqTok fi fd ++ ' ' :: X with hREST
  set R0 : Str := sp ++ ':' :: ' ' :: REST with hR0
  have hline : mkGrammarLine sp (freqTok fi fd) cs md sn spd tl =
      "DX de ".data ++ R0 := by
    simp only [mkGrammarLine, hR0, hREST, hX, hT1, hT2, hT3]
    have h1 : " dB ".data = [' ', 'd', 'B', ' '] := rfl
    have h2 : " WPM".data = [' ', 'W', 'P', 'M'] := rfl
    simp [h1, h2, List.append_assoc]
  have e1 : dropLit "DX de ".data (mkGrammarLine sp (freqTok fi fd) cs md sn spd tl) =
      some R0 := by rw [hline, dropLit_append]
  have e2 : spotterStep R0 = some (sp, ' ' :: REST) := spotterStep_spec REST hsp hspw
  have hdigF : headNotWs REST = true := by
    rcases fd with _ | s
    · rw [hREST]
      simp only [freqTok, List.append_assoc]
      exact headNotWs_append_digits _ hfi hfid
    · rw [hREST]
      simp only [freqTok, List.append_assoc, List.cons_append]
      exact headNotWs_append_digits _ hfi hfid
  have e3 : munchWs (' ' :: REST) = some REST := munchWs_space hdigF
  have e4 : munchFreq REST = some (freqTok fi fd, ' ' :: X) := by
    rcases fd with _ | s
    · rw [hREST]
      exact munchFreq_int ' ' X hfi hfid (by decide) (by decide)
    · rw [hREST]
      have hsh : freqTok fi (some s) ++ ' ' :: X = fi ++ '.' :: (s ++ ' ' :: X) := by
        simp [freqTok]
      rw [hsh]
      have := @munchFreq_frac fi s ' ' X hfi hfid
        (fun c hc => hfd s rfl c hc) (by decide)
      simpa [freqTok] using this
  have e5 : munchWs (' ' :: X) = some X := by
    refine munchWs_space ?_
    rw [hX]
    exact headNotWs_append_nonws _ hcs hcsw
  have e6 : munch1 (fun c => !wsC c) X = some (cs, ' ' :: T1) := by
    rw [hX]
    refine munch1_spec ' ' T1 ?_ hcs (by decide)
    intro c hc
    simp [hcsw c hc]
  have e7 : munchWs (' ' :: T1) = some T1 := by
    refine munchWs_space ?_
    rw [hT1]
    exact headNotWs_append_word _ hmd hmdw
  have e8 : munch1 wordC T1 = some (md, ' ' :: T2) := by
    rw [hT1]
    exact munch1_spec ' ' T2 hmdw hmd (by decide)
  have e9 : munchWs (' ' :: T2) = some T2 := by
    refine munchWs_space ?_
    rw [hT2]
    exact headNotWs_append_digits _ hsn hsnd
  have e10 : munch1 digC T2 = some (sn, ' ' :: 'd' :: 'B' :: ' ' :: T3) := by
    rw [hT2]
    exact munch1_spec ' ' _ hsnd hsn (by decide)
  have e11 : munchWs (' ' :: 'd' :: 'B' :: ' ' :: T3) =
      some ('d' :: 'B' :: ' ' :: T3) := munchWs_space (by rfl)
  have e12 : dropLit "dB".data ('d' :: 'B' :: ' ' :: T3) = some (' ' :: T3) :=
    dropLit_append "dB".data (' ' :: T3)
  have e13 : munchWs (' ' :: T3) = some T3 := by
    refine munchWs_space ?_
    rw [hT3]
    exact headNotWs_append_digits _ hspd hspdd
  have e14 : munch1 digC T3 = some (spd, ' ' :: 'W' :: 'P' :: 'M' :: tl) := by
    rw [hT3]
    exact munch1_spec ' ' _ hspdd hspd (by decide)
  have e15 : munchWs (' ' :: 'W' :: 'P' :: 'M' :: tl) =
      some ('W' :: 'P' :: 'M' :: tl) := munchWs_space (by rfl)
  have e16 : dropLit "WPM".data ('W' :: 'P' :: 'M' :: tl) = some tl :=
    dropLit_append "WPM".data tl
  have hHead : matchHead (mkGrammarLine sp (freqTok fi fd) cs md sn spd tl) =
      some (sp, freqTok fi fd, cs, T1) := by
    rw [matchHead, e1]
    simp only [Option.bind_eq_bind, Option.some_bind]
    rw [e2]
    simp only [Option.some_bind]
    rw [e3]
    simp only [Option.some_bind]
    rw [e4]
    simp only [Option.some_bind]
    rw [e5]
    simp only [Option.some_bind]
    rw [e6]
    simp only [Option.some_bind]
    rw [e7]
    simp only [Option.some_bind]
    rfl
  have hTail : matchModeTail T1 = some (md, sn, spd) := by
    rw [matchModeTail, e8]
    simp only [Option.bind_eq_bind, Option.some_bind]
    rw [e9]
    simp only [Option.some_bind]
    rw [e10]
    simp only [Option.some_bind]
    rw [e11]
    simp only [Option.some_bind]
    rw [e12]
    simp only [Option.some_bind]
    rw [e13]
    simp only [Option.some_bind]
    rw [e14]
    simp only [Option.some_bind]
    rw [e15]
    simp only [Option.some_bind]
    rw [e16]
    simp only [Option.some_bind]
    rfl
  rw [matchAt, hHead]
  simp only [Option.bind_eq_bind, Option.some_bind]
  rw [hTail]
  simp only [Option.some_bind]
  rfl

theorem searchFrom_pos {line : Str} {caps : SpotCaps} (hne : line ≠ [])
    (h : matchAt line = some caps) : searchFrom line = some caps := by
  cases line with
  | nil => exact absurd rfl hne
  | cons c cs => simp [searchFrom, h]

/-- C1.  For every input line: a line that is well-formed per the grammar
`DX de <spotter>: <freq> <callsign> <mode> <snr> dB <speed> WPM` (tokens
quantified over their token classes, with any trailing remainder) parses to
a `RawSpot` whose fields are exactly the tokens of the line, with trailing
`-`, `#`, `:` stripped from the spotter token and the numeric tokens parsed;
a line not beginning with the sentinel `DX de` produces no spot; a
sentinel-prefixed but structurally invalid line, or one whose SNR overflows
`i32`, produces no spot.  (Parsing is a total function into `Option`; it
cannot raise.) -/
theorem c1_parse_spot_line_spec :
    (∀ (sp fi cs md sn spd tl : Str) (fd : Option Str) (now fqv : ℚ) (sv wv : ℤ),
      sp ≠ [] → (∀ c ∈ sp, wsC c = false) →
      fi ≠ [] → (∀ c ∈ fi, digC c = true) →
      (∀ s, fd = some s → ∀ c ∈ s, digC c = true) →
      cs ≠ [] → (∀ c ∈ cs, wsC c = false) →
      md ≠ [] → (∀ c ∈ md, wordC c = true) →
      parseDecimal (freqTok fi fd) = some fqv →
      parseI32 sn = some sv →
      parseI32 spd = some wv →
      processLine (mkGrammarLine sp (freqTok fi fd) cs md sn spd tl) now =
        some { spotter_callsign := trimEndMarks sp
               spotted_callsign := cs
               frequency_khz := F64.num fqv
               snr := sv
               speed_wpm := wv
               mode := md
               timestamp := now }) ∧
    (∀ (line : Str) (now : ℚ), startsWithL "DX de".data line = false →
      processLine line now = none) ∧
    (∀ now : ℚ, processLine "DX de not a spot line\n".data now = none) ∧
    (∀ now : ℚ,
      processLine "DX de W1AW-#: 14033.0 WO6W CW 2147483648 dB 22 WPM\n".data now = none) := by
  refine ⟨?_, ?_, ?_, ?_⟩
  · intro sp fi cs md sn spd tl fd now fqv sv wv hsp hspw hfi hfid hfd hcs hcsw hmd
      hmdw hfq hsnv hspv
    obtain ⟨hsn, hsnd⟩ := parseI32_shape hsnv
    obtain ⟨hspd, hspdd⟩ := parseI32_shape hspv
    have hmatch := matchAt_grammar sp fi cs md sn spd tl fd hsp hspw hfi hfid hfd
      hcs hcsw hmd hmdw hsn hsnd hspd hspdd
    have hnonnil : mkGrammarLine sp (freqTok fi fd) cs md sn spd tl ≠ [] := by
      simp [mkGrammarLine]
    have hsearch := searchFrom_pos hnonnil hmatch
    have hstart : startsWithL "DX de".data
        (mkGrammarLine sp (freqTok fi fd) cs md sn spd tl) = true := by
      have hd : "DX de ".data = "DX de".data ++ [' '] := by decide
      rw [startsWithL, mkGrammarLine, hd]
      simp only [List.append_assoc]
      rw [dropLit_append]
      rfl
    rw [processLine, hstart]
    simp only [if_true]
    rw [parse_spot_line, hsearch]
    simp only [hfq, hsnv, hspv]
  · intro line now h
    simp [processLine, h]
  · intro now
    rfl
  · intro now
    rfl

/-- Witness for C1: the spec's end-to-end example line parses to exactly the
expected `RawSpot`. -/
theorem c1_parse_spot_line_spec_witness :
    processLine "DX de W1AW-#: 14033.0 WO6W CW 24 dB 22 WPM\r\n".data 0 =
      some { spotter_callsign := "W1AW".data
             spotted_callsign := "WO6W".data
             frequency_khz := F64.num 14033
             snr := 24
             speed_wpm := 22
             mode := "CW".data
             timestamp := 0 } := by
  have hfq : parseDecimal (freqTok "14033".data (some "0".data)) = some 14033 := by
    simp +decide [parseDecimal, freqTok]
    have d1 : digitsVal ['1', '4', '0', '3', '3'] = 14033 := by decide
    have d2 : digitsVal ['0'] = 0 := by decide
    rw [d1, d2]
    norm_num
  have h := c1_parse_spot_line_spec.1 "W1AW-#".data "14033".data "WO6W".data
    "CW".data "24".data "22".data "\r\n".data (some "0".data) 0 14033 24 22
    (by decide) (by decide) (by decide) (by decide)
    (by intro s hs; cases hs; decide)
    (by decide) (by decide) (by decide) (by decide) hfq (by decide) (by decide)
  have e : mkGrammarLine "W1AW-#".data (freqTok "14033".data (some "0".data))
      "WO6W".data "CW".data "24".data "22".data "\r\n".data =
      "DX de W1AW-#: 14033.0 WO6W CW 24 dB 22 WPM\r\n".data := by decide
  rw [e] at h
  rw [h]
  decide

/-! ## Helper lemmas: the aggregation store -/

theorem findKey_upsert_same (l : List (Str × AggregatedSpot)) (k : Str)
    (raw : RawSpot) (now : ℚ) :
    findKey (upsert l k raw now) k =
      some (match findKey l k with
            | none => AggregatedSpot.from_raw raw now
            | some e => e.update raw now) := by
  induction l with
  | nil => simp [upsert, findKey]
  | cons p t ih =>
    by_cases hk : p.1 = k
    · simp [upsert, findKey, hk]
    · simp [upsert, findKey, hk, ih]

theorem findKey_upsert_other (l : List (Str × AggregatedSpot)) (k k' : Str)
    (raw : RawSpot) (now : ℚ) (hne : k' ≠ k) :
    findKey (upsert l k raw now) k' = findKey l k' := by
  induction l with
  | nil => simp [upsert, findKey, Ne.symm hne]
  | cons p t ih =>
    by_cases hk : p.1 = k
    · simp [upsert, findKey, hk, hne, Ne.symm hne]
    · by_cases hk' : p.1 = k'
      · simp [upsert, findKey, hk, hk', hne, Ne.symm hne]
      · simp [upsert, findKey, hk, hk', ih]

theorem add_spot_min_snr (st : SpotStore) (raw : RawSpot) (now : ℚ) :
    (st.add_spot raw now).min_snr = st.min_snr := by
  rw [SpotStore.add_spot]
  split <;> rfl

theorem add_spot_max_age (st : SpotStore) (raw : RawSpot) (now : ℚ) :
    (st.add_spot raw now).max_age = st.max_age := by
  rw [SpotStore.add_spot]
  split <;> rfl

/-- One accepted `add_spot` never decreases the running max SNR of any
present entry. -/
theorem add_spot_highest_mono (st : SpotStore) (raw : RawSpot) (now : ℚ)
    (k : Str) (e : AggregatedSpot) (h : findKey st.spots k = some e) :
    ∃ e2, findKey (st.add_spot raw now).spots k = some e2 ∧
      e.highest_snr ≤ e2.highest_snr := by
  rw [SpotStore.add_spot]
  split
  · exact ⟨e, h, le_refl _⟩
  · by_cases hk : k = rawKey raw
    · subst hk
      refine ⟨e.update raw now, ?_, ?_⟩
      · rw [findKey_upsert_same, h]
      · rw [AggregatedSpot.update]
        dsimp only
        split <;> omega
    · exact ⟨e, by rw [findKey_upsert_other st.spots (rawKey raw) k raw now hk]; exact h,
        le_refl _⟩

/-- Folding a same-key, filter-passing batch on a store already holding the
key: the running max accumulates over the batch. -/
theorem add_all_highest_acc (k : Str) (l : List (RawSpot × ℚ)) :
    ∀ (st : SpotStore) (e0 : AggregatedSpot),
      findKey st.spots k = some e0 →
      (∀ p ∈ l, rawKey p.1 = k) →
      (∀ p ∈ l, st.min_snr ≤ p.1.snr) →
      ∃ e, findKey (st.add_all l).spots k = some e ∧
        e.highest_snr = (l.map (fun p => p.1.snr)).foldl max e0.highest_snr := by
  induction l with
  | nil => intro st e0 h _ _; exact ⟨e0, h, rfl⟩
  | cons p rest ih =>
    intro st e0 h hk hsnr
    have hkp : rawKey p.1 = k := hk p (by simp)
    have hsp : st.min_snr ≤ p.1.snr := hsnr p (by simp)
    have hstep : (st.add_spot p.1 p.2).spots = upsert st.spots (rawKey p.1) p.1 p.2 := by
      rw [SpotStore.add_spot, if_neg (by omega)]
    have hfind : findKey (st.add_spot p.1 p.2).spots k = some (e0.update p.1 p.2) := by
      rw [hstep, hkp, findKey_upsert_same, h]
    have hmin : (st.add_spot p.1 p.2).min_snr = st.min_snr := add_spot_min_snr ..
    obtain ⟨e, he, hmax⟩ := ih (st.add_spot p.1 p.2) (e0.update p.1 p.2) hfind
      (fun q hq => hk q (by simp [hq]))
      (fun q hq => by rw [hmin]; exact hsnr q (by simp [hq]))
    refine ⟨e, ?_, ?_⟩
    · simpa [SpotStore.add_all] using he
    · rw [hmax]
      have : (e0.update p.1 p.2).highest_snr = max e0.highest_snr p.1.snr := by
        rw [AggregatedSpot.update]
        dsimp only
        split <;> omega
      simp [this]

theorem foldl_max_mem (i : ℤ) (xs : List ℤ) :
    xs.foldl max i = i ∨ xs.foldl max i ∈ xs := by
  induction xs generalizing i with
  | nil => exact Or.inl rfl
  | cons x t ih =>
    have hfold : (x :: t).foldl max i = t.foldl max (max i x) := rfl
    rcases ih (max i x) with h | h
    · rcases le_total i x with hle | hle
      · right
        rw [hfold, h]
        simp [max_eq_right hle]
      · left
        rw [hfold, h]
        simp [max_eq_left hle]
    · right
      rw [hfold]
      exact List.mem_cons_of_mem _ h

theorem foldl_max_le (i : ℤ) (xs : List ℤ) :
    i ≤ xs.foldl max i ∧ ∀ x ∈ xs, x ≤ xs.foldl max i := by
  induction xs generalizing i with
  | nil => simp
  | cons x t ih =>
    obtain ⟨h1, h2⟩ := ih (max i x)
    refine ⟨le_trans (le_max_left i x) h1, ?_⟩
    intro y hy
    rcases List.mem_cons.1 hy with h | h
    · subst h
      exact le_trans (le_max_right i y) h1
    · exact h2 y h

/-- C3.  After `purge_old_spots`, an entry is present iff it was present
and its `last_spotted` is not strictly older than `now - max_age`; an entry
exactly at the boundary is retained; the surviving entries are exactly what
`count` counts. -/
theorem c3_purge_boundary (st : SpotStore) (now : ℚ) :
    (∀ p : Str × AggregatedSpot,
      p ∈ (st.purge_old_spots now).spots ↔
        p ∈ st.spots ∧ ¬ p.2.last_spotted < now - st.max_age) ∧
    (∀ p ∈ st.spots, p.2.last_spotted = now - st.max_age →
      p ∈ (st.purge_old_spots now).spots) ∧
    (st.purge_old_spots now).count =
      (st.spots.filter (fun p => now - st.max_age ≤ p.2.last_spotted)).length := by
  refine ⟨?_, ?_, rfl⟩
  · intro p
    simp [SpotStore.purge_old_spots, List.mem_filter, not_lt]
  · intro p hp he
    simp only [SpotStore.purge_old_spots, List.mem_filter]
    exact ⟨hp, by simp [he]⟩

/-- C4.  For any nonempty same-key batch of raw spots all passing the SNR
filter, ingesting the whole batch into an empty store yields an entry whose
`highest_snr` is the maximum SNR of the batch (stated as: it occurs in the
batch and dominates it), for every ingestion order; and a single `add_spot`
never decreases the `highest_snr` of an existing entry. -/
theorem c4_monotone_max_snr :
    (∀ (m : ℤ) (a : ℚ) (l : List (RawSpot × ℚ)) (k : Str),
      l ≠ [] →
      (∀ p ∈ l, rawKey p.1 = k) →
      (∀ p ∈ l, m ≤ p.1.snr) →
      ∃ e, findKey ((SpotStore.add_all { spots := [], min_snr := m, max_age := a } l).spots) k =
          some e ∧
        e.highest_snr ∈ l.map (fun p => p.1.snr) ∧
        ∀ s ∈ l.map (fun p => p.1.snr), s ≤ e.highest_snr) ∧
    (∀ (st : SpotStore) (raw : RawSpot) (now : ℚ) (k : Str) (e : AggregatedSpot),
      findKey st.spots k = some e →
      ∃ e2, findKey (st.add_spot raw now).spots k = some e2 ∧
        e.highest_snr ≤ e2.highest_snr) := by
  constructor
  · intro m a l k hne hk hsnr
    cases l with
    | nil => exact absurd rfl hne
    | cons p rest =>
      set st0 : SpotStore := { spots := [], min_snr := m, max_age := a } with hst0
      have hnotlt : ¬ p.1.snr < st0.min_snr := by
        have := hsnr p (by simp)
        rw [hst0]
        dsimp only
        omega
      have hstep : (st0.add_spot p.1 p.2).spots =
          [(rawKey p.1, AggregatedSpot.from_raw p.1 p.2)] := by
        rw [SpotStore.add_spot, if_neg hnotlt]
        rw [hst0]
        rfl
      have hfind : findKey (st0.add_spot p.1 p.2).spots k =
          some (AggregatedSpot.from_raw p.1 p.2) := by
        rw [hstep]
        have := hk p (by simp)
        simp [findKey, this]
      obtain ⟨e, he, hmax⟩ := add_all_highest_acc k rest (st0.add_spot p.1 p.2)
        (AggregatedSpot.from_raw p.1 p.2) hfind
        (fun q hq => hk q (by simp [hq]))
        (fun q hq => by
          rw [add_spot_min_snr]
          exact hsnr q (by simp [hq]))
      refine ⟨e, by simpa [SpotStore.add_all] using he, ?_, ?_⟩
      · rw [hmax]
        rcases foldl_max_mem (AggregatedSpot.from_raw p.1 p.2).highest_snr
            (rest.map (fun p => p.1.snr)) with h | h
        · simp only [AggregatedSpot.from_raw, List.map_cons, List.mem_cons] at h ⊢
          exact Or.inl h
        · simp only [List.map_cons, List.mem_cons]
          exact Or.inr h
      · rw [hmax]
        obtain ⟨h1, h2⟩ := foldl_max_le (AggregatedSpot.from_raw p.1 p.2).highest_snr
          (rest.map (fun p => p.1.snr))
        intro s hs
        rcases List.mem_cons.1 hs with h | h
        · subst h
          simpa [AggregatedSpot.from_raw] using h1
        · exact h2 s h
  · exact add_spot_highest_mono

/-- The aggregate obtained from `n` copies of the same raw sample: count
`n`, means pinned at the sample values, max SNR the sample SNR. -/
def constAgg (raw : RawSpot) (n : ℕ) (t : ℚ) : AggregatedSpot :=
  { callsign := raw.spotted_callsign
    frequency_khz := raw.frequency_khz
    center_frequency_khz := raw.frequency_khz.round
    highest_snr := raw.snr
    average_speed := F64.num (raw.speed_wpm : ℚ)
    spot_count := n
    last_spotted := t }

theorem from_raw_const (raw : RawSpot) (t : ℚ) :
    AggregatedSpot.from_raw raw t = constAgg raw 1 t := rfl

/-- Updating a sample-pinned aggregate with the same sample only bumps the
count and timestamp: the incremental mean of identical samples is the
sample. -/
theorem update_const (raw : RawSpot) (n : ℕ) (t t' : ℚ) :
    (constAgg raw n t).update raw t' = constAgg raw (n + 1) t' := by
  have hnz : ((n : ℚ) + 1) ≠ 0 := by positivity
  rw [AggregatedSpot.update, constAgg, constAgg]
  dsimp only
  rcases hf : raw.frequency_khz with f | _ <;>
    simp [hf, F64.sub, F64.div, F64.add, hnz, AggregatedSpot.mk.injEq, lt_irrefl]

/-- Re-ingesting the same raw spot over a single-entry store keyed by it
keeps the aggregate pinned at the sample, bumping count and timestamp. -/
theorem add_all_const (raw : RawSpot) (m : ℤ) (hsnr : m ≤ raw.snr) (ts : List ℚ) :
    ∀ (a : ℚ) (n : ℕ) (t : ℚ),
      (SpotStore.add_all
        { spots := [(rawKey raw, constAgg raw n t)], min_snr := m, max_age := a }
        (ts.map (fun u => (raw, u)))).spots =
      [(rawKey raw, constAgg raw (n + ts.length) (ts.getLastD t))] := by
  induction ts with
  | nil => intro a n t; simp [SpotStore.add_all]
  | cons u us ih =>
    intro a n t
    simp only [List.map_cons, SpotStore.add_all, List.foldl_cons]
    have hstep : (SpotStore.add_spot
        { spots := [(rawKey raw, constAgg raw n t)], min_snr := m, max_age := a }
        raw u) =
        { spots := [(rawKey raw, constAgg raw (n + 1) u)], min_snr := m, max_age := a } := by
      rw [SpotStore.add_spot, if_neg (by show ¬ raw.snr < m; omega)]
      dsimp only
      rw [upsert, if_pos rfl, update_const]
    rw [hstep]
    have := ih a (n + 1) u
    simp only [SpotStore.add_all] at this
    rw [this]
    simp only [List.getLastD_cons, List.length_cons]
    have harith : n + 1 + us.length = n + (us.length + 1) := by omega
    rw [harith]

/-- C5.  Ingesting the same SNR-passing raw spot `n ≥ 1` times (at capture
times `ts`) into an empty store yields exactly one entry, with
`spot_count = n`, `average_speed` and `frequency_khz` equal to the raw
sample's values, `highest_snr` equal to the raw SNR, and `last_spotted` the
final ingestion time. -/
theorem c5_identical_ingest (raw : RawSpot) (m : ℤ) (a : ℚ) (ts : List ℚ)
    (hne : ts ≠ []) (hsnr : m ≤ raw.snr) :
    (SpotStore.add_all { spots := [], min_snr := m, max_age := a }
        (ts.map (fun t => (raw, t)))).spots =
      [(rawKey raw, constAgg raw ts.length (ts.getLastD 0))] := by
  cases ts with
  | nil => exact absurd rfl hne
  | cons t us =>
    simp only [List.map_cons, SpotStore.add_all, List.foldl_cons]
    have hstep : (SpotStore.add_spot { spots := [], min_snr := m, max_age := a } raw t) =
        { spots := [(rawKey raw, constAgg raw 1 t)], min_snr := m, max_age := a } := by
      rw [SpotStore.add_spot, if_neg (by show ¬ raw.snr < m; omega)]
      dsimp only
      rw [upsert, from_raw_const]
    rw [hstep]
    have := add_all_const raw m hsnr us a 1 t
    simp only [SpotStore.add_all] at this
    rw [this]
    simp only [List.getLastD_cons, List.length_cons]
    have harith : 1 + us.length = us.length + 1 := by omega
    rw [harith]

/-- Sample spots for the store witnesses. -/
def aggA : AggregatedSpot :=
  { callsign := "K1A".data, frequency_khz := .num 7000, center_frequency_khz := .num 7000,
    highest_snr := 20, average_speed := .num 20, spot_count := 1, last_spotted := 0 }

def aggB : AggregatedSpot :=
  { callsign := "K2B".data, frequency_khz := .num 14000, center_frequency_khz := .num 14000,
    highest_snr := 20, average_speed := .num 25, spot_count := 1, last_spotted := 40 }

def storeC3 : SpotStore :=
  { spots := [("K1A|7000".data, aggA), ("K2B|14000".data, aggB)], min_snr := 0, max_age := 60 }

/-- Witness for C3: a concrete store with one stale and one exactly-boundary
entry (the boundary entry is the membership instance of interest). -/
theorem c3_purge_boundary_witness :
    (∀ p : Str × AggregatedSpot,
      p ∈ (storeC3.purge_old_spots 100).spots ↔
        p ∈ storeC3.spots ∧ ¬ p.2.last_spotted < 100 - storeC3.max_age) ∧
    (∀ p ∈ storeC3.spots, p.2.last_spotted = 100 - storeC3.max_age →
      p ∈ (storeC3.purge_old_spots 100).spots) ∧
    (storeC3.purge_old_spots 100).count =
      (storeC3.spots.filter (fun p => 100 - storeC3.max_age ≤ p.2.last_spotted)).length :=
  c3_purge_boundary storeC3 100

def rawW : RawSpot :=
  ⟨"W1AW".data, "WO6W".data, .num 14033, 24, 22, "CW".data, 0⟩

def rawW2 : RawSpot :=
  ⟨"K3LR".data, "WO6W".data, .num 14033, 10, 30, "CW".data, 0⟩

theorem rawW_key : rawKey rawW = "WO6W|14033".data := by
  have h1 : rawW.frequency_khz.round = .num 14033 := by
    rw [show rawW.frequency_khz = F64.num 14033 from rfl, F64.round]
    norm_num [roundHalfAway]
  rw [rawKey, h1]
  have h2 : roundTiesEven (14033 : ℚ) = 14033 := by norm_num [roundTiesEven]
  rw [spotKey, fmtDec0, h2]
  decide

theorem rawW2_key : rawKey rawW2 = "WO6W|14033".data := by
  have h1 : rawW2.frequency_khz.round = .num 14033 := by
    rw [show rawW2.frequency_khz = F64.num 14033 from rfl, F64.round]
    norm_num [roundHalfAway]
  rw [rawKey, h1]
  have h2 : roundTiesEven (14033 : ℚ) = 14033 := by norm_num [roundTiesEven]
  rw [spotKey, fmtDec0, h2]
  decide

/-- Witness for C4: two same-key raw spots with SNRs 10 and 24, ingested in
the order putting the larger one first. -/
theorem c4_monotone_max_snr_witness :
    ∃ e, findKey ((SpotStore.add_all { spots := [], min_snr := 0, max_age := 600 }
        [(rawW, 0), (rawW2, 1)]).spots) "WO6W|14033".data = some e ∧
      e.highest_snr ∈ [(rawW, (0 : ℚ)), (rawW2, 1)].map (fun p => p.1.snr) ∧
      ∀ s ∈ [(rawW, (0 : ℚ)), (rawW2, 1)].map (fun p => p.1.snr), s ≤ e.highest_snr := by
  refine c4_monotone_max_snr.1 0 600 [(rawW, 0), (rawW2, 1)] "WO6W|14033".data
    (by simp) ?_ (by decide)
  intro p hp
  rcases List.mem_cons.1 hp with h | h
  · rw [h]
    exact rawW_key
  · simp only [List.mem_singleton] at h
    rw [h]
    exact rawW2_key

/-- Witness for C5: the same raw spot ingested three times. -/
theorem c5_identical_ingest_witness :
    (SpotStore.add_all { spots := [], min_snr := 10, max_age := 600 }
        ([(0 : ℚ), 1, 2].map (fun t => (rawW, t)))).spots =
      [(rawKey rawW, constAgg rawW 3 2)] :=
  c5_identical_ingest rawW 10 600 [0, 1, 2] (by simp) (by decide)

/-! ## Helper lemmas: the checked stable sort -/

section SortLemmas

variable {α : Type} (le : α → α → Option Bool)

theorem mergeChk_isSome : ∀ (xs ys : List α),
    (∀ x ∈ xs, ∀ y ∈ ys, (le x y).isSome) → (mergeChk le xs ys).isSome := by
  intro xs
  induction xs with
  | nil => intro ys h; simp [mergeChk]
  | cons x xs ihx =>
    intro ys
    induction ys with
    | nil => intro h; simp [mergeChk]
    | cons y ys ihy =>
      intro h
      rw [mergeChk]
      cases hle : le x y with
      | none =>
        have := h x (by simp) y (by simp)
        rw [hle] at this
        simp at this
      | some b =>
        cases b
        · have := ihy (fun u hu v hv => h u hu v (List.mem_cons_of_mem _ hv))
          rcases Option.isSome_iff_exists.1 this with ⟨z, hz⟩
          simp [hz]
        · have := ihx (y :: ys) (fun u hu v hv => h u (List.mem_cons_of_mem _ hu) v hv)
          rcases Option.isSome_iff_exists.1 this with ⟨z, hz⟩
          simp [hz]

theorem mergeChk_perm : ∀ (xs ys zs : List α),
    mergeChk le xs ys = some zs → zs.Perm (xs ++ ys) := by
  intro xs
  induction xs with
  | nil =>
    intro ys zs h
    rw [mergeChk] at h
    cases h
    simp
  | cons x xs ihx =>
    intro ys
    induction ys with
    | nil =>
      intro zs h
      rw [mergeChk] at h
      cases h
      simp
    | cons y ys ihy =>
      intro zs h
      rw [mergeChk] at h
      cases hle : le x y with
      | none => rw [hle] at h; exact Option.noConfusion h
      | some b =>
        rw [hle] at h
        cases b
        · rcases Option.map_eq_some'.1 h with ⟨z', hz', hzz⟩
          subst hzz
          have hp := ihy z' hz'
          have hmid : List.Perm (y :: (x :: xs ++ ys)) ((x :: xs) ++ y :: ys) :=
            List.Perm.symm (List.perm_middle)
          exact List.Perm.trans (hp.cons y) hmid
        · rcases Option.map_eq_some'.1 h with ⟨z', hz', hzz⟩
          subst hzz
          exact (ihx (y :: ys) z' hz').cons x

theorem mergeChk_sorted (R : α → α → Prop)
    (htrans : ∀ a b c, R a b → R b c → R a c)
    (hT : ∀ a b, le a b = some true → R a b)
    (hF : ∀ a b, le a b = some false → R b a) :
    ∀ (xs ys zs : List α), xs.Pairwise R → ys.Pairwise R →
      mergeChk le xs ys = some zs → zs.Pairwise R := by
  intro xs
  induction xs with
  | nil =>
    intro ys zs _ hys h
    rw [mergeChk] at h
    cases h
    exact hys
  | cons x xs ihx =>
    intro ys
    induction ys with
    | nil =>
      intro zs hxs _ h
      rw [mergeChk] at h
      cases h
      exact hxs
    | cons y ys ihy =>
      intro zs hxs hys h
      rw [mergeChk] at h
      cases hle : le x y with
      | none => rw [hle] at h; exact Option.noConfusion h
      | some b =>
        rw [hle] at h
        obtain ⟨hx_rest, hxs_tail⟩ := List.pairwise_cons.1 hxs
        obtain ⟨hy_rest, hys_tail⟩ := List.pairwise_cons.1 hys
        cases b
        · rcases Option.map_eq_some'.1 h with ⟨z', hz', hzz⟩
          subst hzz
          have hRyx : R y x := hF x y hle
          have hsort' : z'.Pairwise R := ihy z' hxs hys_tail hz'
          refine List.Pairwise.cons ?_ hsort'
          intro b hb
          have hb' : b ∈ (x :: xs) ++ ys := (mergeChk_perm le _ _ _ hz').mem_iff.1 hb
          rcases List.mem_append.1 hb' with hbx | hby
          · rcases List.mem_cons.1 hbx with hbx | hbx
            · subst hbx
              exact hRyx
            · exact htrans y x b hRyx (hx_rest b hbx)
          · exact hy_rest b hby
        · rcases Option.map_eq_some'.1 h with ⟨z', hz', hzz⟩
          subst hzz
          have hRxy : R x y := hT x y hle
          have hsort' : z'.Pairwise R := ihx (y :: ys) z' hxs_tail hys hz'
          refine List.Pairwise.cons ?_ hsort'
          intro b hb
          have hb' : b ∈ xs ++ y :: ys := (mergeChk_perm le _ _ _ hz').mem_iff.1 hb
          rcases List.mem_append.1 hb' with hbx | hby
          · exact hx_rest b hbx
          · rcases List.mem_cons.1 hby with hby | hby
            · subst hby
              exact hRxy
            · exact htrans x y b hRxy (hy_rest b hby)

theorem msortChk_perm_fuel : ∀ (n : ℕ) (l zs : List α), l.length ≤ n →
    msortChk le l = some zs → zs.Perm l := by
  intro n
  induction n with
  | zero =>
    intro l zs hlen h
    have hl : l = [] := List.length_eq_zero.1 (Nat.le_zero.1 hlen)
    subst hl
    rw [msortChk] at h
    simp at h
    subst h
    rfl
  | succ n ih =>
    intro l zs hlen h
    rw [msortChk] at h
    by_cases hsmall : l.length ≤ 1
    · rw [dif_pos hsmall] at h
      cases h
      rfl
    · rw [dif_neg hsmall] at h
      have hlen2 : 2 ≤ l.length := by omega
      cases hL : msortChk le (l.take (l.length / 2)) with
      | none => rw [hL] at h; exact Option.noConfusion h
      | some ls =>
        cases hR : msortChk le (l.drop (l.length / 2)) with
        | none => rw [hL, hR] at h; exact Option.noConfusion h
        | some rs =>
          rw [hL, hR] at h
          have htake : (l.take (l.length / 2)).length ≤ n := by
            simp only [List.length_take]
            omega
          have hdrop : (l.drop (l.length / 2)).length ≤ n := by
            simp only [List.length_drop]
            omega
          have hp1 := ih _ _ htake hL
          have hp2 := ih _ _ hdrop hR
          have hm := mergeChk_perm le _ _ _ h
          exact (hm.trans (hp1.append hp2)).trans
            (by rw [List.take_append_drop])

theorem msortChk_sorted_fuel (R : α → α → Prop)
    (htrans : ∀ a b c, R a b → R b c → R a c)
    (hT : ∀ a b, le a b = some true → R a b)
    (hF : ∀ a b, le a b = some false → R b a) :
    ∀ (n : ℕ) (l zs : List α), l.length ≤ n →
      msortChk le l = some zs → zs.Pairwise R := by
  intro n
  induction n with
  | zero =>
    intro l zs hlen h
    have hl : l = [] := List.length_eq_zero.1 (Nat.le_zero.1 hlen)
    subst hl
    rw [msortChk] at h
    simp at h
    subst h
    exact List.Pairwise.nil
  | succ n ih =>
    intro l zs hlen h
    rw [msortChk] at h
    by_cases hsmall : l.length ≤ 1
    · rw [dif_pos hsmall] at h
      cases h
      cases l with
      | nil => exact List.Pairwise.nil
      | cons a t =>
        cases t with
        | nil => simp
        | cons b u => simp at hsmall
    · rw [dif_neg hsmall] at h
      cases hL : msortChk le (l.take (l.length / 2)) with
      | none => rw [hL] at h; exact Option.noConfusion h
      | some ls =>
        cases hR : msortChk le (l.drop (l.length / 2)) with
        | none => rw [hL, hR] at h; exact Option.noConfusion h
        | some rs =>
          rw [hL, hR] at h
          have htake : (l.take (l.length / 2)).length ≤ n := by
            simp only [List.length_take]
            omega
          have hdrop : (l.drop (l.length / 2)).length ≤ n := by
            simp only [List.length_drop]
            omega
          exact mergeChk_sorted le R htrans hT hF _ _ _
            (ih _ _ htake hL) (ih _ _ hdrop hR) h

theorem msortChk_isSome_fuel : ∀ (n : ℕ) (l : List α), l.length ≤ n →
    (∀ x ∈ l, ∀ y ∈ l, (le x y).isSome) → (msortChk le l).isSome := by
  intro n
  induction n with
  | zero =>
    intro l hlen _
    have hl : l = [] := List.length_eq_zero.1 (Nat.le_zero.1 hlen)
    subst hl
    rw [msortChk]
    simp
  | succ n ih =>
    intro l hlen htot
    rw [msortChk]
    by_cases hsmall : l.length ≤ 1
    · rw [dif_pos hsmall]
      simp
    · rw [dif_neg hsmall]
      have htake : (l.take (l.length / 2)).length ≤ n := by
        simp only [List.length_take]
        omega
      have hdrop : (l.drop (l.length / 2)).length ≤ n := by
        simp only [List.length_drop]
        omega
      have hsubT := List.take_subset (l.length / 2) l
      have hsubD := List.drop_subset (l.length / 2) l
      have hL := ih _ htake (fun x hx y hy => htot x (hsubT hx) y (hsubT hy))
      have hR := ih _ hdrop (fun x hx y hy => htot x (hsubD hx) y (hsubD hy))
      rcases Option.isSome_iff_exists.1 hL with ⟨ls, hls⟩
      rcases Option.isSome_iff_exists.1 hR with ⟨rs, hrs⟩
      rw [hls, hrs]
      have hmemL : ∀ x ∈ ls, x ∈ l := by
        intro x hx
        exact hsubT ((msortChk_perm_fuel le n _ ls htake hls).mem_iff.1 hx)
      have hmemR : ∀ y ∈ rs, y ∈ l := by
        intro y hy
        exact hsubD ((msortChk_perm_fuel le n _ rs hdrop hrs).mem_iff.1 hy)
      exact mergeChk_isSome le ls rs (fun x hx y hy => htot x (hmemL x hx) y (hmemR y hy))

end SortLemmas

/-! ## C10 and C2: the frequency-sorted query -/

theorem freqLe_isSome {a b : AggregatedSpot} (ha : a.frequency_khz ≠ F64.nan)
    (hb : b.frequency_khz ≠ F64.nan) : (freqLe a b).isSome := by
  rcases hfa : a.frequency_khz with qa | _
  · rcases hfb : b.frequency_khz with qb | _
    · simp [freqLe, F64.pcmp, hfa, hfb]
    · exact absurd hfb hb
  · exact absurd hfa ha

theorem freqLe_true {a b : AggregatedSpot} (h : freqLe a b = some true) :
    F64.qle a.frequency_khz b.frequency_khz := by
  rcases hfa : a.frequency_khz with qa | _ <;>
    rcases hfb : b.frequency_khz with qb | _ <;>
      rw [freqLe, hfa, hfb] at h <;>
        simp only [F64.pcmp, Option.map_some', Option.map_none'] at h
  · have hb : (!(compare qa qb == Ordering.gt)) = true := Option.some_inj.1 h
    have hne : compare qa qb ≠ Ordering.gt := by
      intro hc
      rw [hc] at hb
      exact absurd hb (by decide)
    have hnlt : ¬ qb < qa := fun hlt => hne (compare_gt_iff_gt.2 hlt)
    simpa [F64.qle] using le_of_not_lt hnlt
  · exact Option.noConfusion h
  · exact Option.noConfusion h
  · exact Option.noConfusion h

theorem freqLe_false {a b : AggregatedSpot} (h : freqLe a b = some false) :
    F64.qle b.frequency_khz a.frequency_khz := by
  rcases hfa : a.frequency_khz with qa | _ <;>
    rcases hfb : b.frequency_khz with qb | _ <;>
      rw [freqLe, hfa, hfb] at h <;>
        simp only [F64.pcmp, Option.map_some', Option.map_none'] at h
  · have hb : (!(compare qa qb == Ordering.gt)) = false := Option.some_inj.1 h
    have heq : compare qa qb = Ordering.gt := by
      cases hcc : compare qa qb
      · rw [hcc] at hb
        exact absurd hb (by decide)
      · rw [hcc] at hb
        exact absurd hb (by decide)
      · rfl
    have hlt : qb < qa := compare_gt_iff_gt.1 heq
    simpa [F64.qle] using le_of_lt hlt
  · exact Option.noConfusion h
  · exact Option.noConfusion h
  · exact Option.noConfusion h

theorem qle_freq_trans (a b c : AggregatedSpot)
    (h1 : F64.qle a.frequency_khz b.frequency_khz)
    (h2 : F64.qle b.frequency_khz c.frequency_khz) :
    F64.qle a.frequency_khz c.frequency_khz := by
  rcases hfa : a.frequency_khz with qa | _ <;>
    rcases hfb : b.frequency_khz with qb | _ <;>
      rcases hfc : c.frequency_khz with qc | _ <;>
        rw [hfa, hfb] at h1 <;> rw [hfb, hfc] at h2 <;>
          simp only [F64.qle] at h1 h2 ⊢
  exact le_trans h1 h2

/-! ### C10: the float-overflow refinement

`F64` above idealizes Rust `f64` finite values as exact rationals and has
no infinity classes.  For C1-C9 nothing depends on that; for C10 it is
load-bearing, because the NaN-freedom argument turns on exactly the
idealized-away behaviour:

* `str::parse::<f64>()` does not fail on an overlong digit token matched by
  `(\d+\.?\d*)` — under round-to-nearest-even it saturates every value at
  or above `2^1024 - 2^970` (the midpoint above `f64::MAX`) to `+inf`;
* `format!("{:.0}", f64::INFINITY)` prints `inf`, so two same-callsign
  infinite-frequency spots share the key `"CALL|inf"`, and
  `AggregatedSpot::update` (spot.rs:70) then computes
  `inf + (inf - inf)/2 = NaN` into `frequency_khz`;
* a later `get_spots_by_frequency` comparing that entry with any other
  panics on `partial_cmp(..).unwrap()`.

`F64R` refines `F64` with the infinity classes (finite values still exact
rationals), `parseF64R` is the saturating `str::parse::<f64>` on the
regex's nonnegative decimal tokens, and `updateFreqR` is the
frequency-mean expression of `AggregatedSpot::update` over those classes.
They exhibit the route by which NaN reaches a store — refuting the
reachable-state NaN-freedom part of C10 — while the panic itself is
stated on the store model (`storeNan` below). -/

/-- `f64` value classes with infinities: an exact finite rational, `±inf`,
or NaN. -/
inductive F64R where
  | num (q : ℚ)
  | pinf
  | ninf
  | nan
deriving DecidableEq

/-- IEEE addition on the value classes. -/
def F64R.add : F64R → F64R → F64R
  | .num a, .num b => .num (a + b)
  | .num _, .pinf => .pinf
  | .num _, .ninf => .ninf
  | .pinf, .num _ => .pinf
  | .ninf, .num _ => .ninf
  | .pinf, .pinf => .pinf
  | .ninf, .ninf => .ninf
  | .pinf, .ninf => .nan
  | .ninf, .pinf => .nan
  | .nan, _ => .nan
  | _, .nan => .nan

/-- IEEE subtraction on the value classes (`inf - inf = NaN`). -/
def F64R.sub : F64R → F64R → F64R
  | .num a, .num b => .num (a - b)
  | .num _, .pinf => .ninf
  | .num _, .ninf => .pinf
  | .pinf, .num _ => .pinf
  | .ninf, .num _ => .ninf
  | .pinf, .pinf => .nan
  | .ninf, .ninf => .nan
  | .pinf, .ninf => .pinf
  | .ninf, .pinf => .ninf
  | .nan, _ => .nan
  | _, .nan => .nan

/-- IEEE division on the value classes (divisors here are positive
counts; the remaining cases follow IEEE with `+0` for the zero sign). -/
def F64R.div : F64R → F64R → F64R
  | .num a, .num b =>
    if b = 0 then (if a = 0 then .nan else if 0 < a then .pinf else .ninf)
    else .num (a / b)
  | .num _, .pinf => .num 0
  | .num _, .ninf => .num 0
  | .pinf, .num b => if b < 0 then .ninf else .pinf
  | .ninf, .num b => if b < 0 then .pinf else .ninf
  | .pinf, .pinf => .nan
  | .pinf, .ninf => .nan
  | .ninf, .pinf => .nan
  | .ninf, .ninf => .nan
  | .nan, _ => .nan
  | _, .nan => .nan

/-- The smallest nonnegative real that `f64` round-to-nearest-even sends
to `+inf`: the midpoint between `f64::MAX = 2^1024 - 2^971` and `2^1024`. -/
def f64InfThresholdQ : ℚ := 2 ^ 1024 - 2 ^ 970

/-- `str::parse::<f64>()` on the regex's frequency tokens (nonnegative
decimal literals): never an error — values at or above the overflow
threshold saturate to `+inf`, finite values kept exact. -/
def parseF64R (s : Str) : Option F64R :=
  (parseDecimal s).map (fun q => if f64InfThresholdQ ≤ q then F64R.pinf else F64R.num q)

/-- The `frequency_khz` assignment of `AggregatedSpot::update`
(spot.rs:70), `freq += (raw_freq - freq) / n`, over the refined value
classes (`n` the new spot count). -/
def updateFreqR (freq rawFreq : F64R) (n : ℕ) : F64R :=
  freq.add ((rawFreq.sub freq).div (F64R.num (n : ℚ)))

/-- A store entry whose frequency has become NaN (as produced by two
same-key infinite-frequency updates), alongside a normal entry. -/
def aggNanEntry : AggregatedSpot :=
  { callsign := "W1INF".data, frequency_khz := .nan, center_frequency_khz := .nan,
    highest_snr := 20, average_speed := .num 20, spot_count := 2, last_spotted := 0 }

def storeNan : SpotStore :=
  { spots := [("W1INF|NaN".data, aggNanEntry), ("K1A|7000".data, aggA)],
    min_snr := 0, max_age := 60 }

/-- A grammar-shaped feed line whose frequency token is `1` followed by
309 zeros — matched by the spot regex and parsed without error. -/
def bigFreqTok : Str := '1' :: List.replicate 309 '0'

def bigFreqLine : Str :=
  mkGrammarLine "K1TTT-#".data bigFreqTok "W1INF".data "CW".data "20".data "20".data
    ['\n']

set_option maxRecDepth 8000 in
/-- Counterexample to C10 as stated: NaN-freedom is not maintained on all
reachable states.  The overlong frequency token is accepted by the line
parser (no error); under the real float semantics it parses to `+inf`;
updating an `inf`-frequency aggregate with a second `inf` sample drives
the frequency to NaN; and the query over a store holding such an entry and
one other panics (`none`). -/
theorem c10_nan_reachable :
    (processLine bigFreqLine 0).isSome = true ∧
    parseF64R bigFreqTok = some F64R.pinf ∧
    updateFreqR F64R.pinf F64R.pinf 2 = F64R.nan ∧
    storeNan.get_spots_by_frequency = none := by
  refine ⟨by decide, ?_, rfl, ?_⟩
  · have hval : parseDecimal bigFreqTok = some ((digitsVal bigFreqTok : ℕ) : ℚ) := rfl
    have hd : (digitsVal bigFreqTok : ℕ) = 10 ^ 309 := by decide
    rw [parseF64R, hval, hd]
    simp only [Option.map_some']
    rw [if_pos (by rw [f64InfThresholdQ]; push_cast; norm_num)]
  · rw [SpotStore.get_spots_by_frequency]
    show msortChk freqLe [aggNanEntry, aggA] = none
    rw [msortChk]
    rw [dif_neg (by decide)]
    have hT : msortChk freqLe ([aggNanEntry, aggA].take ([aggNanEntry, aggA].length / 2)) =
        some [aggNanEntry] := by
      rw [show ([aggNanEntry, aggA].take ([aggNanEntry, aggA].length / 2)) = [aggNanEntry]
        from rfl]
      rw [msortChk]
      rfl
    have hD : msortChk freqLe ([aggNanEntry, aggA].drop ([aggNanEntry, aggA].length / 2)) =
        some [aggA] := by
      rw [show ([aggNanEntry, aggA].drop ([aggNanEntry, aggA].length / 2)) = [aggA] from rfl]
      rw [msortChk]
      rfl
    rw [hT, hD]
    show mergeChk freqLe [aggNanEntry] [aggA] = none
    rw [mergeChk.eq_def]
    rfl

/-- C10 amended.  What does hold: the query returns (cannot panic) on any
store whose entries all have non-NaN frequencies; the line parser never
outputs a NaN frequency directly; and purging preserves NaN-freedom.  The
ingestion path does NOT preserve it in general — see `c10_nan_reachable`
for the saturated-infinity route into a panicking store. -/
theorem c10_no_nan_query_safe :
    (∀ st : SpotStore, (∀ p ∈ st.spots, p.2.frequency_khz ≠ F64.nan) →
      (st.get_spots_by_frequency).isSome) ∧
    (∀ (line : Str) (now : ℚ) (r : RawSpot), processLine line now = some r →
      r.frequency_khz ≠ F64.nan) ∧
    (∀ (st : SpotStore) (now : ℚ),
      (∀ p ∈ st.spots, p.2.frequency_khz ≠ F64.nan) →
      ∀ p ∈ (st.purge_old_spots now).spots, p.2.frequency_khz ≠ F64.nan) := by
  refine ⟨?_, ?_, ?_⟩
  · intro st hnn
    rw [SpotStore.get_spots_by_frequency]
    refine msortChk_isSome_fuel freqLe (st.spots.map Prod.snd).length _ le_rfl ?_
    intro x hx y hy
    rcases List.mem_map.1 hx with ⟨px, hpx, hex⟩
    rcases List.mem_map.1 hy with ⟨py, hpy, hey⟩
    exact freqLe_isSome (hex ▸ hnn px hpx) (hey ▸ hnn py hpy)
  · intro line now r h
    rw [processLine] at h
    split at h
    · rw [parse_spot_line] at h
      split at h
      · exact Option.noConfusion h
      · split at h
        · rw [Option.some_inj] at h
          rw [← h]
          simp
        · exact Option.noConfusion h
    · exact Option.noConfusion h
  · intro st now hnn p hp
    rw [SpotStore.purge_old_spots] at hp
    dsimp only at hp
    exact hnn p (List.mem_filter.1 hp).1

/-- A store state reachable by lowering then raising the min-SNR filter: a
single entry whose `highest_snr` is below the current filter. -/
def aggLow : AggregatedSpot :=
  { callsign := "K5LOW".data, frequency_khz := .num 7000, center_frequency_khz := .num 7000,
    highest_snr := 0, average_speed := .num 20, spot_count := 1, last_spotted := 0 }

def storeC2 : SpotStore :=
  { spots := [("K5LOW|7000".data, aggLow)], min_snr := 10, max_age := 60 }

/-- Counterexample to C2 as stated: `get_spots_by_frequency` applies no
filter at query time — it returns an entry whose `highest_snr` is below the
current min-SNR filter (and the spec-described filtered query would return
nothing). -/
theorem c2_counterexample :
    storeC2.get_spots_by_frequency = some [aggLow] ∧
    aggLow.highest_snr < storeC2.min_snr ∧
    querySpecced storeC2 100 = some [] := by
  refine ⟨?_, by decide, ?_⟩
  · rw [SpotStore.get_spots_by_frequency]
    show msortChk freqLe [aggLow] = some [aggLow]
    rw [msortChk]
    rfl
  · rw [querySpecced]
    have hfilt : ((storeC2.spots.map Prod.snd).filter
        (fun s => decide (storeC2.min_snr ≤ s.highest_snr) &&
          decide ((100 : ℚ) - storeC2.max_age ≤ s.last_spotted))) = [] := by
      show List.filter _ [aggLow] = []
      rw [List.filter]
      have hsnr : (decide (storeC2.min_snr ≤ aggLow.highest_snr) &&
          decide ((100 : ℚ) - storeC2.max_age ≤ aggLow.last_spotted)) = false := by
        have : decide (storeC2.min_snr ≤ aggLow.highest_snr) = false := by decide
        rw [this, Bool.false_and]
      rw [hsnr]
      rfl
    rw [hfilt, msortChk]
    rfl

/-- C2 amended: on any NaN-free store the query returns all stored entries
(no min-SNR or max-age filtering), sorted ascending by frequency; ties are
in unspecified (hash-iteration) order, not callsign order. -/
theorem c2_amended_query_sorted :
    ∀ st : SpotStore, (∀ p ∈ st.spots, p.2.frequency_khz ≠ F64.nan) →
      ∃ l, st.get_spots_by_frequency = some l ∧
        l.Perm (st.spots.map Prod.snd) ∧
        l.Pairwise (fun a b => F64.qle a.frequency_khz b.frequency_khz) := by
  intro st hnn
  have hsome : (st.get_spots_by_frequency).isSome := by
    rw [SpotStore.get_spots_by_frequency]
    refine msortChk_isSome_fuel freqLe (st.spots.map Prod.snd).length _ le_rfl ?_
    intro x hx y hy
    rcases List.mem_map.1 hx with ⟨px, hpx, hex⟩
    rcases List.mem_map.1 hy with ⟨py, hpy, hey⟩
    exact freqLe_isSome (hex ▸ hnn px hpx) (hey ▸ hnn py hpy)
  rcases Option.isSome_iff_exists.1 hsome with ⟨l, hl⟩
  rw [SpotStore.get_spots_by_frequency] at hl
  refine ⟨l, by rw [SpotStore.get_spots_by_frequency]; exact hl, ?_, ?_⟩
  · exact msortChk_perm_fuel freqLe (st.spots.map Prod.snd).length _ l le_rfl hl
  · exact msortChk_sorted_fuel freqLe
      (fun a b => F64.qle a.frequency_khz b.frequency_khz)
      qle_freq_trans (fun a b => freqLe_true) (fun a b => freqLe_false)
      (st.spots.map Prod.snd).length _ l le_rfl hl

def storeC2b : SpotStore :=
  { spots := [("K2B|14000".data, aggB), ("K1A|7000".data, aggA)], min_snr := 0, max_age := 60 }

/-- Witness for the amended C2: a two-entry store listed out of frequency
order. -/
theorem c2_amended_query_sorted_witness :
    ∃ l, storeC2b.get_spots_by_frequency = some l ∧
      l.Perm (storeC2b.spots.map Prod.snd) ∧
      l.Pairwise (fun a b => F64.qle a.frequency_khz b.frequency_khz) :=
  c2_amended_query_sorted storeC2b (by decide)

/-- Witness for the amended C10: the NaN-free hypothesis holds of a
concrete store and the query is defined there; and the end-to-end example
line yields a non-NaN frequency. -/
theorem c10_no_nan_query_safe_witness :
    (storeC2b.get_spots_by_frequency).isSome = true ∧
    ∀ r : RawSpot,
      processLine "DX de W1AW-#: 14033.0 WO6W CW 24 dB 22 WPM\r\n".data 0 = some r →
        r.frequency_khz ≠ F64.nan :=
  ⟨c10_no_nan_query_safe.1 storeC2b (by decide),
   fun r h => c10_no_nan_query_safe.2.1 _ 0 r h⟩

/-! ## C7: the display string -/

theorem padLeft_length (w : ℕ) (s : Str) : (padLeft w s).length = max w s.length := by
  simp only [padLeft, List.length_append, List.length_replicate]
  omega

theorem padRight_length (w : ℕ) (s : Str) : (padRight w s).length = max w s.length := by
  simp only [padRight, List.length_append, List.length_replicate]
  omega

theorem fmtDec1_14033 : fmtDec1 (F64.num 14033) = "14033.0".data := by
  rw [fmtDec1]
  have h : roundTiesEven ((14033 : ℚ) * 10) = 140330 := by norm_num [roundTiesEven]
  rw [h]
  decide

theorem fmtDec1_144050 : fmtDec1 (F64.num 144050) = "144050.0".data := by
  rw [fmtDec1]
  have h : roundTiesEven ((144050 : ℚ) * 10) = 1440500 := by norm_num [roundTiesEven]
  rw [h]
  decide

theorem speed22_eval : (F64.num (22 : ℚ)).round.asI32 = 22 := by
  rw [F64.round]
  have h : roundHalfAway (22 : ℚ) = 22 := by norm_num [roundHalfAway]
  rw [h, F64.asI32]
  have hfl : (if (0 : ℚ) ≤ ((22 : ℤ) : ℚ) then ⌊((22 : ℤ) : ℚ)⌋ else -⌊-((22 : ℤ) : ℚ)⌋) = 22 := by
    rw [if_pos (by norm_num)]
    norm_num
  rw [hfl]
  decide

/-- The spec's end-to-end example entity. -/
def aggEx : AggregatedSpot :=
  { callsign := "WO6W".data, frequency_khz := .num 14033, center_frequency_khz := .num 14033,
    highest_snr := 24, average_speed := .num 22, spot_count := 1, last_spotted := 0 }

/-- A realistic VHF aggregate (144 MHz band): six integer digits of
frequency. -/
def aggWide : AggregatedSpot :=
  { callsign := "WO6W".data, frequency_khz := .num 144050, center_frequency_khz := .num 144050,
    highest_snr := 24, average_speed := .num 22, spot_count := 1, last_spotted := 0 }

/-- Counterexample to C7 as stated: the format's field widths are minimum
widths, so a frequency of 144050.0 kHz yields a 21-character string, not
20. -/
theorem c7_counterexample : (aggWide.to_display_string).length = 21 := by
  rw [AggregatedSpot.to_display_string]
  show (padLeft 7 (fmtDec1 (F64.num 144050)) ++
      ' ' :: padLeft 2 (intStr ((F64.num (22 : ℚ)).round.asI32)) ++
      ' ' :: padRight 9 (if 9 < ("WO6W".data : Str).length then ("WO6W".data : Str).take 9
        else "WO6W".data)).length = 21
  rw [fmtDec1_144050, speed22_eval]
  decide

/-- C7 amended: the display string is exactly 20 characters whenever the
formatted frequency needs at most the 7-character field and the formatted
rounded speed at most the 2-character field (true for HF frequencies below
100000 kHz and speeds below 100 wpm; beyond that the minimum-width fields
expand); and the spec's example entity formats to the 20-character string
`"14033.0 22 WO6W     "` (five trailing spaces). -/
theorem c7_display_layout :
    (∀ s : AggregatedSpot,
      (fmtDec1 s.frequency_khz).length ≤ 7 →
      (intStr s.average_speed.round.asI32).length ≤ 2 →
      (s.to_display_string).length = 20) ∧
    aggEx.to_display_string = "14033.0 22 WO6W     ".data := by
  constructor
  · intro s h1 h2
    rw [AggregatedSpot.to_display_string]
    have hcall : (if 9 < s.callsign.length then s.callsign.take 9 else s.callsign).length ≤ 9 := by
      split
      · simp [List.length_take]
      · omega
    simp only [List.length_append, List.length_cons, padLeft_length, padRight_length]
    omega
  · rw [AggregatedSpot.to_display_string]
    show padLeft 7 (fmtDec1 (F64.num 14033)) ++
        ' ' :: padLeft 2 (intStr ((F64.num (22 : ℚ)).round.asI32)) ++
        ' ' :: padRight 9 (if 9 < ("WO6W".data : Str).length then ("WO6W".data : Str).take 9
          else "WO6W".data) = "14033.0 22 WO6W     ".data
    rw [fmtDec1_14033, speed22_eval]
    decide

/-- Witness for the amended C7: the example entity satisfies both width
hypotheses and formats to exactly 20 characters. -/
theorem c7_display_layout_witness : (aggEx.to_display_string).length = 20 :=
  c7_display_layout.1 aggEx
    (by rw [show aggEx.frequency_khz = F64.num 14033 from rfl, fmtDec1_14033]; decide)
    (by rw [show aggEx.average_speed = F64.num (22 : ℚ) from rfl, speed22_eval]; decide)

/-! ## C6 and C9: the display scheduler -/

theorem update_no_advance (st : VfdDisplay) (spots : List AggregatedSpot)
    (now : ℚ) (nowMs : ℕ) (rnd : RndDraw)
    (hopen : st.port_open = true) (hforce : st.force_random_mode = false)
    (hne : spots ≠ [])
    (hlt : max (now - st.last_update) 0 < st.scroll_interval) :
    st.update spots now nowMs rnd = (st, []) := by
  rw [VfdDisplay.update, hopen, hforce]
  rw [if_neg (by simp)]
  rw [if_neg (by simp [List.isEmpty_iff, hne])]
  rw [if_pos hlt]

theorem update_advance (st : VfdDisplay) (spots : List AggregatedSpot)
    (now : ℚ) (nowMs : ℕ) (rnd : RndDraw)
    (hopen : st.port_open = true) (hforce : st.force_random_mode = false)
    (hlen : 3 ≤ spots.length)
    (hel : st.scroll_interval ≤ max (now - st.last_update) 0) :
    st.update spots now nowMs rnd =
      ({ st with
          last_update := now
          scroll_index := (st.scroll_index + 1) % spots.length
          current_lines :=
            ((spots.getD (st.scroll_index % spots.length) junkSpot).to_display_string,
             (spots.getD ((st.scroll_index + 1) % spots.length) junkSpot).to_display_string) },
       [VfdWrite.frame
          (format_line ((spots.getD (st.scroll_index % spots.length) junkSpot).to_display_string))
          (format_line st.current_lines.2),
        VfdWrite.frame
          (format_line ((spots.getD (st.scroll_index % spots.length) junkSpot).to_display_string))
          (format_line ((spots.getD ((st.scroll_index + 1) % spots.length) junkSpot).to_display_string))]) := by
  have hne : spots ≠ [] := by
    intro h
    rw [h] at hlen
    simp at hlen
  rw [VfdDisplay.update, hopen, hforce]
  rw [if_neg (by simp)]
  rw [if_neg (by simp [List.isEmpty_iff, hne])]
  rw [if_neg (not_lt.2 hel)]
  rw [if_neg (by omega), if_neg (by omega)]
  simp only [VfdDisplay.write_line, VfdDisplay.write_display, hopen, if_true]
  rfl

theorem mod_cover (si i N : ℕ) (hN : 0 < N) (hi : i < N) :
    (si + (N + i - si % N) % N) % N = i := by
  have ha : si % N < N := Nat.mod_lt _ hN
  have hle : si % N ≤ N + i := by omega
  calc (si + (N + i - si % N) % N) % N
      = (si % N + ((N + i - si % N) % N) % N) % N := Nat.add_mod ..
    _ = (si % N + (N + i - si % N) % N) % N := by
        rw [Nat.mod_mod_of_dvd _ (dvd_refl N)]
    _ = (si % N + (N + i - si % N)) % N := by
        conv_rhs => rw [Nat.add_mod]
        rw [Nat.mod_mod_of_dvd _ (dvd_refl N)]
    _ = (N + i) % N := by rw [Nat.add_sub_cancel' hle]
    _ = i % N := Nat.add_mod_left N i
    _ = i := Nat.mod_eq_of_lt hi

/-- Invariant of iterated advances: after `k + 1` ticks spaced at least
`scroll_interval` apart, the cursor has advanced `k + 1` steps and line 1
holds the spot of the `k`-th advance. -/
theorem runTicks_inv (st : VfdDisplay) (spots : List AggregatedSpot)
    (hopen : st.port_open = true) (hforce : st.force_random_mode = false)
    (hlen : 3 ≤ spots.length) (t : ℕ → ℚ)
    (h0 : st.scroll_interval ≤ t 0 - st.last_update)
    (hstep : ∀ k, st.scroll_interval ≤ t (k + 1) - t k) :
    ∀ k,
      (st.runTicks spots ((List.range (k + 1)).map t)).port_open = true ∧
      (st.runTicks spots ((List.range (k + 1)).map t)).force_random_mode = false ∧
      (st.runTicks spots ((List.range (k + 1)).map t)).scroll_interval = st.scroll_interval ∧
      (st.runTicks spots ((List.range (k + 1)).map t)).last_update = t k ∧
      (st.runTicks spots ((List.range (k + 1)).map t)).scroll_index =
        (st.scroll_index + (k + 1)) % spots.length ∧
      (st.runTicks spots ((List.range (k + 1)).map t)).current_lines.1 =
        (spots.getD ((st.scroll_index + k) % spots.length) junkSpot).to_display_string := by
  intro k
  induction k with
  | zero =>
    have hr : (List.range 1).map t = [t 0] := rfl
    rw [hr]
    have hel : st.scroll_interval ≤ max (t 0 - st.last_update) 0 :=
      le_trans h0 (le_max_left _ _)
    have hupd := update_advance st spots (t 0) 0 ⟨'A', 0, 0⟩ hopen hforce hlen hel
    have hr1 : st.runTicks spots [t 0] = (st.update spots (t 0) 0 ⟨'A', 0, 0⟩).1 := rfl
    rw [hr1, hupd]
    exact ⟨hopen, hforce, rfl, rfl, rfl, rfl⟩
  | succ k ih =>
    obtain ⟨iopen, iforce, iint, ilast, iidx, _⟩ := ih
    have hr : (List.range (k + 2)).map t = ((List.range (k + 1)).map t) ++ [t (k + 1)] := by
      rw [List.range_succ, List.map_append]
      rfl
    rw [hr]
    have hfold : st.runTicks spots (((List.range (k + 1)).map t) ++ [t (k + 1)]) =
        ((st.runTicks spots ((List.range (k + 1)).map t)).update spots (t (k + 1)) 0
          ⟨'A', 0, 0⟩).1 := by
      rw [VfdDisplay.runTicks, VfdDisplay.runTicks, List.foldl_append]
      rfl
    rw [hfold]
    set S := st.runTicks spots ((List.range (k + 1)).map t) with hS
    have hel : S.scroll_interval ≤ max (t (k + 1) - S.last_update) 0 := by
      rw [iint, ilast]
      exact le_trans (hstep k) (le_max_left _ _)
    have hupd := update_advance S spots (t (k + 1)) 0 ⟨'A', 0, 0⟩ iopen iforce hlen hel
    rw [hupd]
    have hN : 0 < spots.length := by omega
    refine ⟨iopen, iforce, iint, rfl, ?_, ?_⟩
    · show (S.scroll_index + 1) % spots.length = (st.scroll_index + (k + 2)) % spots.length
      rw [iidx]
      conv_rhs => rw [show st.scroll_index + (k + 2) = st.scroll_index + (k + 1) + 1 by omega,
        Nat.add_mod (st.scroll_index + (k + 1)) 1]
      rw [Nat.add_mod ((st.scroll_index + (k + 1)) % spots.length) 1,
        Nat.mod_mod_of_dvd _ (dvd_refl spots.length)]
    · show (spots.getD (S.scroll_index % spots.length) junkSpot).to_display_string = _
      rw [iidx, Nat.mod_mod_of_dvd _ (dvd_refl spots.length)]

/-- C6.  With an open port, rotation not forced off, and `N ≥ 3` spots: a
tick before `scroll_interval` has elapsed since the last advance changes
nothing and writes nothing; a tick at or past it shows spot
`cursor mod N` on line 1 and `(cursor + 1) mod N` on line 2 and advances the
cursor by exactly one (mod `N`), stamping the advance time; and over any
run of ticks spaced at least `scroll_interval` apart, every index appears
on line 1 within the first `N` advances. -/
theorem c6_scroll_rotation (st : VfdDisplay) (spots : List AggregatedSpot)
    (hopen : st.port_open = true) (hforce : st.force_random_mode = false)
    (hlen : 3 ≤ spots.length) :
    (∀ (now : ℚ) (nowMs : ℕ) (rnd : RndDraw),
      max (now - st.last_update) 0 < st.scroll_interval →
      st.update spots now nowMs rnd = (st, [])) ∧
    (∀ (now : ℚ) (nowMs : ℕ) (rnd : RndDraw),
      st.scroll_interval ≤ max (now - st.last_update) 0 →
      (st.update spots now nowMs rnd).1.current_lines =
        ((spots.getD (st.scroll_index % spots.length) junkSpot).to_display_string,
         (spots.getD ((st.scroll_index + 1) % spots.length) junkSpot).to_display_string) ∧
      (st.update spots now nowMs rnd).1.scroll_index =
        (st.scroll_index + 1) % spots.length ∧
      (st.update spots now nowMs rnd).1.last_update = now) ∧
    (∀ t : ℕ → ℚ,
      st.scroll_interval ≤ t 0 - st.last_update →
      (∀ k, st.scroll_interval ≤ t (k + 1) - t k) →
      ∀ i < spots.length, ∃ j < spots.length,
        (st.runTicks spots ((List.range (j + 1)).map t)).current_lines.1 =
          (spots.getD i junkSpot).to_display_string) := by
  refine ⟨?_, ?_, ?_⟩
  · intro now nowMs rnd hlt
    exact update_no_advance st spots now nowMs rnd hopen hforce
      (by intro h; rw [h] at hlen; simp at hlen) hlt
  · intro now nowMs rnd hel
    rw [update_advance st spots now nowMs rnd hopen hforce hlen hel]
    exact ⟨rfl, rfl, rfl⟩
  · intro t h0 hstep i hi
    have hN : 0 < spots.length := by omega
    refine ⟨(spots.length + i - st.scroll_index % spots.length) % spots.length,
      Nat.mod_lt _ hN, ?_⟩
    have hinv := (runTicks_inv st spots hopen hforce hlen t h0 hstep
      ((spots.length + i - st.scroll_index % spots.length) % spots.length)).2.2.2.2.2
    rw [hinv, mod_cover st.scroll_index i spots.length hN hi]

def stW : VfdDisplay :=
  { port_open := true, scroll_index := 0, scroll_interval := 3, last_update := 0,
    force_random_mode := false, random_char_percent := 20,
    random_state := ⟨false, 0, 0, ' ', 0⟩, current_lines := ([], []) }

def spotsW : List AggregatedSpot := [aggA, aggB, aggEx]

/-- Witness for C6: a concrete three-spot advance at a tick past the scroll
interval. -/
theorem c6_scroll_rotation_witness :
    (stW.update spotsW 5 0 ⟨'A', 0, 0⟩).1.current_lines =
      ((spotsW.getD (stW.scroll_index % spotsW.length) junkSpot).to_display_string,
       (spotsW.getD ((stW.scroll_index + 1) % spotsW.length) junkSpot).to_display_string) ∧
    (stW.update spotsW 5 0 ⟨'A', 0, 0⟩).1.scroll_index =
      (stW.scroll_index + 1) % spotsW.length ∧
    (stW.update spotsW 5 0 ⟨'A', 0, 0⟩).1.last_update = 5 :=
  (c6_scroll_rotation stW spotsW rfl rfl (by decide)).2.1 5 0 ⟨'A', 0, 0⟩
    (by show (3 : ℚ) ≤ max ((5 : ℚ) - 0) 0
        norm_num [le_max_iff])

/-- C9.  In idle-animation mode with an open port: after a tick at
wall-clock millisecond `m` of the second, the glyph is shown iff
`m < p × 10` and `p > 0` (`p` the duty-cycle percentage); hence `p = 0`
means never shown and `p = 100` shown the whole second; and a display write
is emitted iff the shown/hidden state actually changed. -/
theorem c9_idle_duty_cycle (st : VfdDisplay) (nowMs : ℕ) (rnd : RndDraw)
    (hopen : st.port_open = true) (hp : st.random_char_percent ≤ 100) :
    ((st.update_random_mode nowMs rnd).1.random_state.showing_char =
      (decide (nowMs % 1000 < st.random_char_percent * 10) &&
        decide (0 < st.random_char_percent))) ∧
    ((st.update_random_mode nowMs rnd).2 ≠ [] ↔
      (st.update_random_mode nowMs rnd).1.random_state.showing_char ≠
        st.random_state.showing_char) ∧
    (st.random_char_percent = 0 →
      (st.update_random_mode nowMs rnd).1.random_state.showing_char = false) ∧
    (st.random_char_percent = 100 →
      (st.update_random_mode nowMs rnd).1.random_state.showing_char = true) := by
  have main : ((st.update_random_mode nowMs rnd).1.random_state.showing_char =
      (decide (nowMs % 1000 < st.random_char_percent * 10) &&
        decide (0 < st.random_char_percent))) ∧
      ((st.update_random_mode nowMs rnd).2 ≠ [] ↔
        (st.update_random_mode nowMs rnd).1.random_state.showing_char ≠
          st.random_state.showing_char) := by
    rw [VfdDisplay.update_random_mode]
    by_cases hsec : nowMs / 1000 ≠ st.random_state.last_second <;>
      cases hbv : (decide (nowMs % 1000 < st.random_char_percent * 10) &&
          decide (0 < st.random_char_percent)) <;>
        cases hsc : st.random_state.showing_char <;>
          simp_all [VfdDisplay.write_display, VfdDisplay.clear]
  refine ⟨main.1, main.2, ?_, ?_⟩
  · intro h
    rw [main.1, h]
    simp
  · intro h
    rw [main.1, h]
    have hm : nowMs % 1000 < 1000 := Nat.mod_lt _ (by norm_num)
    simp only [Bool.and_eq_true, decide_eq_true_eq]
    constructor <;> omega

/-- Witness for C9: the concrete idle state at millisecond 100 of a second,
duty cycle 20%. -/
theorem c9_idle_duty_cycle_witness :
    ((stW.update_random_mode 1100 ⟨'Q', 5, 1⟩).1.random_state.showing_char =
      (decide (1100 % 1000 < stW.random_char_percent * 10) &&
        decide (0 < stW.random_char_percent))) ∧
    ((stW.update_random_mode 1100 ⟨'Q', 5, 1⟩).2 ≠ [] ↔
      (stW.update_random_mode 1100 ⟨'Q', 5, 1⟩).1.random_state.showing_char ≠
        stW.random_state.showing_char) :=
  ⟨(c9_idle_duty_cycle stW 1100 ⟨'Q', 5, 1⟩ rfl (by decide)).1,
   (c9_idle_duty_cycle stW 1100 ⟨'Q', 5, 1⟩ rfl (by decide)).2.1⟩

/-! ## C8: the login handshake -/

theorem filter_nw_lineEvents (lines : List Str) (now : ℚ) :
    (lineEvents lines now).filter isNetWrite = [] := by
  induction lines with
  | nil => rfl
  | cons l t ih =>
    rw [lineEvents, List.flatMap_cons, List.filter_append]
    have h1 : (RbnEvent.rawData l true ::
        (match processLine l now with
         | some s => [RbnEvent.spot s]
         | none => [])).filter isNetWrite = [] := by
      cases processLine l now <;> simp [isNetWrite]
    rw [h1]
    simpa [lineEvents] using ih

theorem count_nw_lineEvents (lines : List Str) (now : ℚ) :
    countNetWrites (lineEvents lines now) = 0 := by
  rw [countNetWrites, filter_nw_lineEvents]
  rfl

/-- A read processed while already logged in sends nothing and stays logged
in. -/
theorem processChunk_logged (st : ConnState) (chunk cs : Str) (now : ℚ)
    (wok : Bool) (h : st.logged_in = true) :
    (processChunk st chunk cs now wok).1.logged_in = true ∧
    countNetWrites (processChunk st chunk cs now wok).2 = 0 := by
  rw [processChunk, h]
  simp only [Bool.not_true, Bool.false_and, Bool.false_eq_true, if_false]
  exact ⟨by trivial, count_nw_lineEvents _ _⟩

theorem processTrace_logged (chunks : List Str) :
    ∀ (st : ConnState) (cs : Str) (now : ℚ) (wok : Bool), st.logged_in = true →
      (processTrace st chunks cs now wok).1.logged_in = true ∧
      countNetWrites (processTrace st chunks cs now wok).2 = 0 := by
  induction chunks with
  | nil => intro st cs now wok h; exact ⟨h, rfl⟩
  | cons c t ih =>
    intro st cs now wok h
    obtain ⟨h1, h2⟩ := processChunk_logged st c cs now wok h
    obtain ⟨h3, h4⟩ := ih (processChunk st c cs now wok).1 cs now wok h1
    rw [processTrace]
    refine ⟨h3, ?_⟩
    rw [countNetWrites, List.filter_append, List.length_append]
    rw [countNetWrites] at h2 h4
    omega

/-- A read that detects the prompt while not logged in (with the socket
write succeeding): exactly one socket write, of `callsign\r\n`; the state
becomes logged-in with an empty buffer. -/
theorem processChunk_login (st : ConnState) (chunk cs : Str) (now : ℚ)
    (h : st.logged_in = false)
    (hpr : containsSub ((drainLines (st.buffer ++ chunk)).2.map Char.toLower)
      loginPrompt = true) :
    countNetWrites (processChunk st chunk cs now true).2 = 1 ∧
    (processChunk st chunk cs now true).2.filter isNetWrite =
      [RbnEvent.netWrite (cs ++ '\r' :: '\n' :: [])] ∧
    (processChunk st chunk cs now true).1.logged_in = true ∧
    (processChunk st chunk cs now true).1.buffer = [] := by
  rw [processChunk, h]
  simp only [Bool.not_false, Bool.true_and, hpr, if_true, if_pos rfl]
  have hfl : ((if (drainLines (st.buffer ++ chunk)).2.isEmpty then ([] : List RbnEvent)
      else [RbnEvent.rawData (drainLines (st.buffer ++ chunk)).2 true]).filter isNetWrite) = [] := by
    split <;> simp [isNetWrite]
  have hfilter : ((lineEvents (drainLines (st.buffer ++ chunk)).1 now ++
      (if (drainLines (st.buffer ++ chunk)).2.isEmpty then ([] : List RbnEvent)
        else [RbnEvent.rawData (drainLines (st.buffer ++ chunk)).2 true]) ++
      [RbnEvent.netWrite (cs ++ '\r' :: '\n' :: []),
       RbnEvent.rawData (cs ++ '\r' :: '\n' :: []) false,
       RbnEvent.status ("Logged in as ".data ++ cs)]).filter isNetWrite) =
      [RbnEvent.netWrite (cs ++ '\r' :: '\n' :: [])] := by
    rw [List.filter_append, List.filter_append, filter_nw_lineEvents, hfl]
    simp [isNetWrite]
  refine ⟨?_, ?_, by trivial, by trivial⟩
  · rw [countNetWrites, hfilter]
    rfl
  · exact hfilter

/-- A read with no prompt detected while not logged in: no socket write,
still not logged in. -/
theorem processChunk_no_prompt (st : ConnState) (chunk cs : Str) (now : ℚ)
    (wok : Bool) (h : st.logged_in = false)
    (hpr : containsSub ((drainLines (st.buffer ++ chunk)).2.map Char.toLower)
      loginPrompt = false) :
    countNetWrites (processChunk st chunk cs now wok).2 = 0 ∧
    (processChunk st chunk cs now wok).1.logged_in = false := by
  rw [processChunk, h]
  simp only [Bool.not_false, Bool.true_and, hpr, Bool.false_eq_true, if_false]
  exact ⟨count_nw_lineEvents _ _, by trivial⟩

/-- Over any run of successful reads starting not-logged-in (writes
succeeding), at most one socket write ever happens. -/
theorem processTrace_at_most_one (chunks : List Str) :
    ∀ (st : ConnState) (cs : Str) (now : ℚ), st.logged_in = false →
      countNetWrites (processTrace st chunks cs now true).2 ≤ 1 := by
  induction chunks with
  | nil => intro st cs now _; simp [processTrace, countNetWrites]
  | cons c t ih =>
    intro st cs now h
    rw [processTrace]
    cases hpr : containsSub ((drainLines (st.buffer ++ c)).2.map Char.toLower) loginPrompt
    · obtain ⟨h1, h2⟩ := processChunk_no_prompt st c cs now true h hpr
      have h3 := ih (processChunk st c cs now true).1 cs now h2
      rw [countNetWrites, List.filter_append, List.length_append]
      rw [countNetWrites] at h1 h3
      omega
    · obtain ⟨h1, _, h2, _⟩ := processChunk_login st c cs now h hpr
      obtain ⟨_, h4⟩ := processTrace_logged t (processChunk st c cs now true).1 cs now true h2
      rw [countNetWrites, List.filter_append, List.length_append]
      rw [countNetWrites] at h1 h4
      omega

/-- C8.  Within a connection: the read on which the login prompt is first
detected (case-insensitively, in the possibly partial remaining buffer)
performs exactly one socket write — `callsign\r\n` — and enters the
logged-in state (write succeeding); once logged in, no later read ever
writes to the socket again; and over any whole read sequence from a
not-logged-in state at most one socket write happens. -/
theorem c8_login_exactly_once :
    (∀ (st : ConnState) (chunk cs : Str) (now : ℚ),
      st.logged_in = false →
      containsSub ((drainLines (st.buffer ++ chunk)).2.map Char.toLower)
        loginPrompt = true →
      countNetWrites (processChunk st chunk cs now true).2 = 1 ∧
      (processChunk st chunk cs now true).2.filter isNetWrite =
        [RbnEvent.netWrite (cs ++ '\r' :: '\n' :: [])] ∧
      (processChunk st chunk cs now true).1.logged_in = true) ∧
    (∀ (chunks : List Str) (st : ConnState) (cs : Str) (now : ℚ) (wok : Bool),
      st.logged_in = true →
      countNetWrites (processTrace st chunks cs now wok).2 = 0 ∧
      (processTrace st chunks cs now wok).1.logged_in = true) ∧
    (∀ (chunks : List Str) (st : ConnState) (cs : Str) (now : ℚ),
      st.logged_in = false →
      countNetWrites (processTrace st chunks cs now true).2 ≤ 1) := by
  refine ⟨?_, ?_, ?_⟩
  · intro st chunk cs now h hpr
    obtain ⟨h1, h2, h3, _⟩ := processChunk_login st chunk cs now h hpr
    exact ⟨h1, h2, h3⟩
  · intro chunks st cs now wok h
    obtain ⟨h1, h2⟩ := processTrace_logged chunks st cs now wok h
    exact ⟨h2, h1⟩
  · exact fun chunks st cs now h => processTrace_at_most_one chunks st cs now h

/-- Witness for C8: the spec's login scenario — a prompt arriving without a
trailing newline, identity `W6JSV`. -/
theorem c8_login_exactly_once_witness :
    countNetWrites (processChunk ⟨[], false⟩
        "Welcome to RBN\nPlease enter your callsign:".data "W6JSV".data 0 true).2 = 1 ∧
    (processChunk ⟨[], false⟩
        "Welcome to RBN\nPlease enter your callsign:".data "W6JSV".data 0 true).2.filter
        isNetWrite =
      [RbnEvent.netWrite ("W6JSV".data ++ '\r' :: '\n' :: [])] ∧
    (processChunk ⟨[], false⟩
        "Welcome to RBN\nPlease enter your callsign:".data "W6JSV".data 0 true).1.logged_in =
      true :=
  c8_login_exactly_once.1 ⟨[], false⟩
    "Welcome to RBN\nPlease enter your callsign:".data "W6JSV".data 0 rfl (by decide)

end RbnVfd
